import Mathlib

/-!
# vapoursynth-tweak: luma curves, channel gains and chroma rotation

A shallow embedding of the numeric core of `adjust.c` and `tweak.c`:

* the C `double` computations are carried out over `Dbl`: a finite double is
  the rational it denotes, next to the IEEE special values (`+inf`, `-inf`,
  `NaN`); every `+`, `-`, `*` and `/` rounds its exact result to the nearest
  binary64 number, ties to even, with gradual underflow and overflow to the
  infinities; the sign of zero is not kept;
* plane buffers and lookup tables are total maps from a byte offset to a
  sample, a store rewrites one offset;
* C `for` loops are folds over the range of the loop counter, pointer bumps
  (`ysrc += d->stride`) are offsets carried in the loop state.
-/

namespace Tweak

/-! ## Doubles -/

/-- A C `double`: the rational a finite double denotes, or one of the IEEE
specials. The operations below only ever produce rationals that are binary64
numbers. -/
inductive Dbl where
  | fin (q : ℚ)
  | pinf
  | ninf
  | nan
  deriving DecidableEq

namespace Dbl

/-- Rounding of a rational to the nearest integer, ties to the even one. -/
def roundHalfEven (x : ℚ) : Int :=
  if x - ⌊x⌋ < 1 / 2 then ⌊x⌋
  else if 1 / 2 < x - ⌊x⌋ then ⌊x⌋ + 1
  else if ⌊x⌋ % 2 = 0 then ⌊x⌋ else ⌊x⌋ + 1

/-- Exponent of the unit in the last place of the binary64 numbers of the
magnitude of `q`: 52 below the binary exponent of `q`, and -1074 in the
subnormal range. -/
def ulpExp (q : ℚ) : Int := max (Int.log 2 |q|) (-1022) - 52

/-- Rounding of an exact result to binary64, to nearest with ties to even: the
nearest multiple of the unit in the last place, or an infinity when that
multiple reaches `2^1024`. -/
def roundNearest (q : ℚ) : Dbl :=
  if (2 : ℚ) ^ (1024 : Int) ≤ |(roundHalfEven (q / 2 ^ ulpExp q) : ℚ) * 2 ^ ulpExp q| then
    (if 0 < q then pinf else ninf)
  else fin ((roundHalfEven (q / 2 ^ ulpExp q) : ℚ) * 2 ^ ulpExp q)

/-- IEEE addition: the exact sum of two finite doubles, rounded. -/
def add : Dbl → Dbl → Dbl
  | fin a, fin b => roundNearest (a + b)
  | nan, _ => nan
  | _, nan => nan
  | pinf, ninf => nan
  | ninf, pinf => nan
  | pinf, _ => pinf
  | _, pinf => pinf
  | ninf, _ => ninf
  | _, ninf => ninf

/-- IEEE negation (exact). -/
def neg : Dbl → Dbl
  | fin a => fin (-a)
  | pinf => ninf
  | ninf => pinf
  | nan => nan

/-- IEEE subtraction: the exact difference, rounded. -/
def sub (x y : Dbl) : Dbl := add x (neg y)

/-- Sign of an infinity scaled by a finite factor (`0 * inf` is `NaN`). -/
def scaleInf (positive : Bool) (q : ℚ) : Dbl :=
  if q = 0 then nan
  else if (0 < q) = positive then pinf else ninf

/-- IEEE multiplication: the exact product of two finite doubles, rounded. -/
def mul : Dbl → Dbl → Dbl
  | fin a, fin b => roundNearest (a * b)
  | nan, _ => nan
  | _, nan => nan
  | pinf, fin b => scaleInf true b
  | ninf, fin b => scaleInf false b
  | fin a, pinf => scaleInf true a
  | fin a, ninf => scaleInf false a
  | pinf, pinf => pinf
  | ninf, ninf => pinf
  | pinf, ninf => ninf
  | ninf, pinf => ninf

/-- IEEE division: the exact quotient of two finite doubles, rounded; a zero
divisor is `+0.0` (every divisor of the sources is a positive literal or a
converted `int`). -/
def div : Dbl → Dbl → Dbl
  | fin a, fin b =>
      if b = 0 then (if a = 0 then nan else if 0 < a then pinf else ninf)
      else roundNearest (a / b)
  | nan, _ => nan
  | _, nan => nan
  | fin _, pinf => fin 0
  | fin _, ninf => fin 0
  | pinf, fin b => if 0 ≤ b then pinf else ninf
  | ninf, fin b => if 0 ≤ b then ninf else pinf
  | pinf, pinf => nan
  | pinf, ninf => nan
  | ninf, pinf => nan
  | ninf, ninf => nan

/-- The C comparison `x < y`; false as soon as an operand is `NaN`. -/
def lt : Dbl → Dbl → Bool
  | fin a, fin b => decide (a < b)
  | nan, _ => false
  | _, nan => false
  | ninf, ninf => false
  | ninf, _ => true
  | pinf, _ => false
  | fin _, pinf => true
  | fin _, ninf => false

/-- The C comparison `x >= y`; false as soon as an operand is `NaN`. -/
def ge : Dbl → Dbl → Bool
  | fin a, fin b => decide (b ≤ a)
  | nan, _ => false
  | _, nan => false
  | pinf, _ => true
  | _, ninf => true
  | ninf, _ => false
  | fin _, pinf => false

/-- Conversion of a C `int` (or promoted `uint8_t`) to `double`: exact, a
32-bit integer is a binary64 number. -/
def ofInt (n : Int) : Dbl := fin (n : ℚ)

/-- Truncation of a rational toward zero. -/
def truncQ (q : ℚ) : Int := if 0 ≤ q then ⌊q⌋ else ⌈q⌉

/-- The cast `(uint8_t)x`: truncation toward zero. C defines it only when the
truncated value lies in `0..255`; outside of that range the model wraps modulo
256, and sends the non-finite values to 0. -/
def toU8 : Dbl → Nat
  | fin q => (truncQ q % 256).toNat
  | _ => 0

instance : Add Dbl := ⟨add⟩
instance : Sub Dbl := ⟨sub⟩
instance : Mul Dbl := ⟨mul⟩
instance : Div Dbl := ⟨div⟩

end Dbl

/-! ## Memory and loops -/

/-- A byte buffer seen from its base pointer: offset to sample. -/
abbrev Buf := Nat → Nat

/-- The assignment `p[a] = v`. -/
def store (m : Buf) (a v : Nat) : Buf := fun k => if k = a then v else m k

/-- The loop `for (int k = 0; k < n; k++) s = body k s`. -/
def forLoop {σ : Type} (n : Nat) (body : Nat → σ → σ) (s : σ) : σ :=
  (List.range n).foldl (fun acc k => body k acc) s

/-- The loop `for (int j = lo; j <= hi; j++) s = body j s` on C `int`s. -/
def forFromTo {σ : Type} (lo hi : Int) (body : Int → σ → σ) (s : σ) : σ :=
  forLoop (hi + 1 - lo).toNat (fun k acc => body (lo + (k : Int)) acc) s

/-! ## Saturating conversions of the sources -/

/-- The conversion `(val < 255.0) ? ((val >= 1.0) ? (uint8_t)val : 0) : 255`
used by `adjust.c` for the luma table and for the rotated chroma samples. -/
def sat1 (val : Dbl) : Nat :=
  if Dbl.lt val (Dbl.fin 255) then
    (if Dbl.ge val (Dbl.fin 1) then Dbl.toU8 val else 0)
  else 255

/-- The conversion `(val < 255.0) ? (uint8_t)val : 255` used by `tweak.c`. -/
def satHi (val : Dbl) : Nat :=
  if Dbl.lt val (Dbl.fin 255) then Dbl.toU8 val else 255

/-! ## Lookup-table application (`adjustGetFrame`, `tweakGetFrame`, `rgbGetFrame`) -/

/-- State of a plane loop: the bumped source and destination pointers (as
offsets from the plane bases) and the destination plane. -/
structure PlaneState where
  srcOff : Nat
  dstOff : Nat
  dst : Buf

/-- The loop shared verbatim by the three frame functions:
```
for (int y = 0; y < height; y++) {
    for (int x = 0; x < width; x++) dst[x] = lut[src[x]];
    src += stride;
    dst += stride;
}
``` -/
def lutLoop (lut : Buf) (width height stride : Nat) (src dst : Buf) : Buf :=
  (forLoop height
    (fun _ st => PlaneState.mk (st.srcOff + stride) (st.dstOff + stride)
      (forLoop width
        (fun x d => store d (st.dstOff + x) (lut (src (st.srcOff + x)))) st.dst))
    (PlaneState.mk 0 0 dst)).dst

/-- The three planes of a frame, as returned by `getReadPtr` / `getWritePtr`
for plane 0, 1 and 2. -/
structure Frame where
  p0 : Buf
  p1 : Buf
  p2 : Buf

/-- The call `memcpy(dst + dstOff, src + srcOff, n)` between distinct buffers. -/
def memcpy (dst : Buf) (dstOff : Nat) (src : Buf) (srcOff n : Nat) : Buf :=
  forLoop n (fun k d => store d (dstOff + k) (src (srcOff + k))) dst

/-- Modelled from the spec: `vs_bitblt` of `VSHelper.h`, a header of the host
that is not among the sources. It is the passthrough of the plane applicator,
"a stride-respecting rectangular block copy (copy `width` samples per row for
`height` rows, advancing by `stride` between rows)" that leaves the inter-row
padding alone. -/
def vs_bitblt (dstp : Buf) (dst_stride : Nat) (srcp : Buf) (src_stride row_size height : Nat) :
    Buf :=
  (forLoop height
    (fun _ st => PlaneState.mk (st.srcOff + src_stride) (st.dstOff + dst_stride)
      (memcpy st.dst st.dstOff srcp st.srcOff row_size))
    (PlaneState.mk 0 0 dstp)).dst

/-! ## `adjust.c` -/

/-- The `adjustData` instance record (the node and video-info pointers are left
out). -/
structure adjustData where
  adjustLuma : Bool
  chromaHeight : Nat
  chromaStride : Nat
  chromaWidth : Nat
  height : Nat
  stride : Nat
  width : Nat
  mult1 : Dbl
  mult2 : Dbl
  lut : Buf

/-- Body of the rotation loop of `adjustGetFrame` for one pair of samples:
```
u = usrc[x] - 128.0;
v = vsrc[x] - 128.0;
u2 = u * d->mult1 + v * d->mult2 + 128.5;
v2 = v * d->mult1 - u * d->mult2 + 128.5;
udst[x] = (u2 < 255.0) ? ((u2 >= 1.0) ? (uint8_t)u2 : 0) : 255;
vdst[x] = (v2 < 255.0) ? ((v2 >= 1.0) ? (uint8_t)v2 : 0) : 255;
``` -/
def rotate (mult1 mult2 : Dbl) (usample vsample : Nat) : Nat × Nat :=
  let u := Dbl.ofInt usample - Dbl.fin 128
  let v := Dbl.ofInt vsample - Dbl.fin 128
  let u2 := u * mult1 + v * mult2 + Dbl.fin (257 / 2)
  let v2 := v * mult1 - u * mult2 + Dbl.fin (257 / 2)
  (sat1 u2, sat1 v2)

/-- State of the rotation loop: the four bumped pointers and the two
destination planes. -/
structure ChromaState where
  usrcOff : Nat
  vsrcOff : Nat
  udstOff : Nat
  vdstOff : Nat
  udst : Buf
  vdst : Buf

/-- One row of the rotation loop, `for (int x = 0; x < d->chromaWidth; x++)`. -/
def rotateRow (d : adjustData) (usrc vsrc : Buf) (st : ChromaState) : Buf × Buf :=
  forLoop d.chromaWidth
    (fun x uv =>
      (store uv.1 (st.udstOff + x)
          (rotate d.mult1 d.mult2 (usrc (st.usrcOff + x)) (vsrc (st.vsrcOff + x))).1,
        store uv.2 (st.vdstOff + x)
          (rotate d.mult1 d.mult2 (usrc (st.usrcOff + x)) (vsrc (st.vsrcOff + x))).2))
    (st.udst, st.vdst)

/-- The rotation loop of `adjustGetFrame` (lines 57-70): every row ends with
`usrc += d->stride; vsrc += d->stride; udst += d->stride; vdst += d->stride;`. -/
def rotateLoop (d : adjustData) (usrc vsrc udst vdst : Buf) : Buf × Buf :=
  let final := forLoop d.chromaHeight
    (fun _ st =>
      ChromaState.mk (st.usrcOff + d.stride) (st.vsrcOff + d.stride)
        (st.udstOff + d.stride) (st.vdstOff + d.stride)
        (rotateRow d usrc vsrc st).1 (rotateRow d usrc vsrc st).2)
    (ChromaState.mk 0 0 0 0 udst vdst)
  (final.udst, final.vdst)

/-- Luma stage of `adjustGetFrame` (lines 39-47). -/
def adjustGetFrame_luma (d : adjustData) (ysrc ydst : Buf) : Buf :=
  if d.adjustLuma then lutLoop d.lut d.width d.height d.stride ysrc ydst
  else vs_bitblt ydst d.stride ysrc d.stride d.width d.height

/-- Chroma stage of `adjustGetFrame` (lines 54-74). -/
def adjustGetFrame_chroma (d : adjustData) (usrc vsrc udst vdst : Buf) : Buf × Buf :=
  if d.mult1 ≠ Dbl.fin 1 ∨ d.mult2 ≠ Dbl.fin 0 then rotateLoop d usrc vsrc udst vdst
  else
    (vs_bitblt udst d.chromaStride usrc d.chromaStride d.chromaWidth d.chromaHeight,
      vs_bitblt vdst d.chromaStride vsrc d.chromaStride d.chromaWidth d.chromaHeight)

/-- The frame computed by `adjustGetFrame` on `arAllFramesReady`, from the
source frame and the freshly allocated destination frame. -/
def adjustGetFrame (d : adjustData) (src dst : Frame) : Frame :=
  Frame.mk (adjustGetFrame_luma d src.p0 dst.p0)
    (adjustGetFrame_chroma d src.p1 src.p2 dst.p1 dst.p2).1
    (adjustGetFrame_chroma d src.p1 src.p2 dst.p1 dst.p2).2

/-- The read `lumaAdjust[k]`: an element of the property array, or whatever
lies in memory past its end. -/
def readLuma (lumaAdjust : List Dbl) (beyond : Nat → Dbl) (k : Nat) : Dbl :=
  (lumaAdjust.get? k).getD (beyond k)

/-- The start of segment `i` in both builders, `start = i * incr`. -/
def segStart (incr : Int) (i : Nat) : Int := (i : Int) * incr

/-- The end of segment `i` in both builders:
`if (i == numLuma - 1) end = 255; else end = (i + 1) * incr - 1;`. -/
def segEnd (numLuma incr : Int) (i : Nat) : Int :=
  if (i : Int) = numLuma - 1 then 255 else ((i : Int) + 1) * incr - 1

/-- The value `((a * j + b) * j) + 0.5` of segment `i` at sample `j`, with
`min_mult`, `max_mult`, `a` and `b` as computed at the top of the segment. -/
def segVal (numLuma incr : Int) (lumaAdjust : List Dbl) (beyond : Nat → Dbl) (i : Nat)
    (j : Int) : Dbl :=
  let start := segStart incr i
  let end_ := segEnd numLuma incr i
  let min_mult := Dbl.fin 1 + readLuma lumaAdjust beyond i / Dbl.fin 100
  let max_mult := Dbl.fin 1 + readLuma lumaAdjust beyond (i + 1) / Dbl.fin 100
  let a := (max_mult - min_mult) / Dbl.ofInt (end_ - start)
  let b := max_mult - a * Dbl.ofInt end_
  ((a * Dbl.ofInt j + b) * Dbl.ofInt j) + Dbl.fin (1 / 2)

/-- The table-building block of `adjustCreate` (lines 119-130 and 136-162):
`numLuma` is the number of elements of `luma`, `lut0` the content of the
table before it is filled. -/
def adjustCreate_lut (lumaAdjust : List Dbl) (beyond : Nat → Dbl) (lut0 : Buf) : Buf :=
  let numLuma : Int := lumaAdjust.length
  if numLuma = 1 then
    let mult := Dbl.fin 1 + readLuma lumaAdjust beyond 0 / Dbl.fin 100
    forLoop 256
      (fun i lut => store lut i (sat1 ((Dbl.ofInt i * mult) + Dbl.fin (1 / 2)))) lut0
  else
    let incr := Int.tdiv 256 (numLuma - 1)
    forLoop (numLuma - 1).toNat
      (fun i lut =>
        forFromTo (segStart incr i) (segEnd numLuma incr i)
          (fun j l => store l j.toNat (sat1 (segVal numLuma incr lumaAdjust beyond i j))) lut)
      lut0

/-- The instance record built by `adjustCreate`: `stride0` and `stride1` are
the strides of plane 0 and 1 of the first frame, `mult1 = cos(hue) * sat` and
`mult2 = sin(hue) * sat` come from libm, `luma` is absent when the property
is. Without `luma` the table keeps its initial content. -/
def adjustCreate (width height subSamplingW subSamplingH stride0 stride1 : Nat)
    (mult1 mult2 : Dbl) (luma : Option (List Dbl)) (beyond : Nat → Dbl) (lut0 : Buf) :
    adjustData :=
  { adjustLuma := luma.isSome
    chromaHeight :=
      if subSamplingH ≠ 0 ∨ subSamplingW ≠ 0 then height >>> subSamplingH else height
    chromaStride := stride1
    chromaWidth :=
      if subSamplingH ≠ 0 ∨ subSamplingW ≠ 0 then width >>> subSamplingW else width
    height := height
    stride := stride0
    width := width
    mult1 := mult1
    mult2 := mult2
    lut := adjustCreate_lut (luma.getD []) beyond lut0 }

/-! ## `tweak.c` -/

/-- The `tweakData` instance record. -/
structure tweakData where
  adjustLuma : Bool
  chromaHeight : Nat
  chromaStride : Nat
  chromaWidth : Nat
  height : Nat
  stride : Nat
  width : Nat
  lut : Buf

/-- The `rgbData` instance record. -/
structure rgbData where
  height : Nat
  stride : Nat
  width : Nat
  rlut : Buf
  glut : Buf
  blut : Buf

/-- The frame computed by `rgbGetFrame`: the same loop once per channel, all
with the stride of plane 0. -/
def rgbGetFrame (d : rgbData) (src dst : Frame) : Frame :=
  Frame.mk (lutLoop d.rlut d.width d.height d.stride src.p0 dst.p0)
    (lutLoop d.glut d.width d.height d.stride src.p1 dst.p1)
    (lutLoop d.blut d.width d.height d.stride src.p2 dst.p2)

/-- Luma stage of `tweakGetFrame` (lines 104-111). -/
def tweakGetFrame_luma (d : tweakData) (ysrc ydst : Buf) : Buf :=
  if d.adjustLuma then lutLoop d.lut d.width d.height d.stride ysrc ydst
  else vs_bitblt ydst d.stride ysrc d.stride d.width d.height

/-- The frame computed by `tweakGetFrame`: the luma stage and two block copies
of the chroma planes. -/
def tweakGetFrame (d : tweakData) (src dst : Frame) : Frame :=
  Frame.mk (tweakGetFrame_luma d src.p0 dst.p0)
    (vs_bitblt dst.p1 d.chromaStride src.p1 d.chromaStride d.chromaWidth d.chromaHeight)
    (vs_bitblt dst.p2 d.chromaStride src.p2 d.chromaStride d.chromaWidth d.chromaHeight)

/-- The table-building block of `tweakCreate` (lines 262-272 and 284-310). The
outer loop runs `for (int i = 0; i < numLuma; i++)`. -/
def tweakCreate_lut (lumaAdjust : List Dbl) (beyond : Nat → Dbl) (lut0 : Buf) : Buf :=
  let numLuma : Int := lumaAdjust.length
  if numLuma = 1 then
    let mult := Dbl.fin 1 + readLuma lumaAdjust beyond 0 / Dbl.fin 100
    forLoop 256
      (fun i lut => store lut i (satHi ((Dbl.ofInt i * mult) + Dbl.fin (1 / 2)))) lut0
  else
    let incr := Int.tdiv 256 (numLuma - 1)
    forLoop numLuma.toNat
      (fun i lut =>
        forFromTo (segStart incr i) (segEnd numLuma incr i)
          (fun j l => store l j.toNat (satHi (segVal numLuma incr lumaAdjust beyond i j))) lut)
      lut0

/-- State of the table loop of `rgbCreate`. -/
structure RgbLuts where
  rlut : Buf
  glut : Buf
  blut : Buf

/-- The table loop of `rgbCreate` (lines 355-370); an absent property is
`1.0`. -/
def rgbCreate_luts (red green blue : Option Dbl) (luts0 : RgbLuts) : RgbLuts :=
  let red := red.getD (Dbl.fin 1)
  let green := green.getD (Dbl.fin 1)
  let blue := blue.getD (Dbl.fin 1)
  forLoop 256
    (fun i l =>
      RgbLuts.mk (store l.rlut i (satHi ((Dbl.ofInt i * red) + Dbl.fin (1 / 2))))
        (store l.glut i (satHi ((Dbl.ofInt i * green) + Dbl.fin (1 / 2))))
        (store l.blut i (satHi ((Dbl.ofInt i * blue) + Dbl.fin (1 / 2)))))
    luts0

/-! ## Auxiliary notions of the statements -/

/-- Offset `o` lies in the `width` leading bytes of one of the first `n` rows
of a plane with row pitch `pitch`. -/
def inRows (pitch width n o : Nat) : Prop :=
  ∃ r, r < n ∧ r * pitch ≤ o ∧ o < r * pitch + width

/-- The saturation of the chroma rotator in the words of the specification:
0 if `r < 1.0`, 255 if `r >= 255.0`, and the truncation of `r` to an integer
otherwise. -/
def clampR (r : ℚ) : Nat :=
  if r < 1 then 0 else if 255 ≤ r then 255 else (Dbl.truncQ r).toNat

/-- The rounding of the builders in the words of the specification:
`round(x)` saturated to `[0, 255]`, that is `min(255, max(0, floor(x + 1/2)))`. -/
def roundSat (x : ℚ) : Int := min 255 (max 0 ⌊x + 1 / 2⌋)

/-! ## Rounding to binary64 -/

/-- The nearest integer: a rational within one half of `n` rounds to `n`. -/
theorem roundHalfEven_near (x : ℚ) (n : Int) (h : |x - n| < 1 / 2) : Dbl.roundHalfEven x = n := by
  have h1 := abs_lt.mp h
  unfold Dbl.roundHalfEven
  by_cases hc : x - ⌊x⌋ < 1 / 2
  · rw [if_pos hc]
    rw [Int.floor_eq_iff]
    have := Int.floor_le x
    constructor
    · by_contra hh
      push_neg at hh
      have hfl : ⌊x⌋ < n := by
        rw [Int.floor_lt]; exact hh
      have : ((⌊x⌋ : Int) : ℚ) + 1 ≤ n := by exact_mod_cast hfl
      linarith [h1.1, h1.2]
    · by_contra hh
      push_neg at hh
      have hfl : n + 1 ≤ ⌊x⌋ := by
        rw [Int.le_floor]; exact_mod_cast hh
      have : ((n : Int) : ℚ) + 1 ≤ ⌊x⌋ := by exact_mod_cast hfl
      linarith [h1.1, h1.2]
  · have hlt := Int.lt_floor_add_one x
    have hle := Int.floor_le x
    have hgt : 1 / 2 < x - ⌊x⌋ := by
      rcases lt_or_eq_of_le (not_lt.mp hc) with h' | h'
      · exact h'
      · exfalso
        have hx : x = ⌊x⌋ + 1 / 2 := by linarith
        rcases le_or_lt n ⌊x⌋ with hn | hn
        · have : (n : ℚ) ≤ ⌊x⌋ := by exact_mod_cast hn
          linarith [h1.2]
        · have : ((⌊x⌋ : Int) : ℚ) + 1 ≤ n := by exact_mod_cast hn
          linarith [h1.1]
    rw [if_neg hc, if_pos hgt]
    have e : ⌊x⌋ + 1 = n := by
      rcases lt_trichotomy (⌊x⌋ + 1) n with hn | hn | hn
      · have : ((⌊x⌋ : Int) : ℚ) + 1 + 1 ≤ n := by exact_mod_cast hn
        linarith [h1.1]
      · exact hn
      · have : (n : ℚ) ≤ ⌊x⌋ := by exact_mod_cast (by omega : n ≤ ⌊x⌋)
        linarith [h1.2]
    exact e

/-- Integers round to themselves. -/
theorem roundHalfEven_intCast (n : Int) : Dbl.roundHalfEven (n : ℚ) = n :=
  roundHalfEven_near _ n (by simp)

/-- Rounding to an integer moves a rational by at most one half. -/
theorem roundHalfEven_error (x : ℚ) : |x - Dbl.roundHalfEven x| ≤ 1 / 2 := by
  have hlt := Int.lt_floor_add_one x
  have hle := Int.floor_le x
  unfold Dbl.roundHalfEven
  rw [abs_le]
  by_cases hc : x - ⌊x⌋ < 1 / 2
  · rw [if_pos hc]
    constructor <;> linarith
  · rw [if_neg hc]
    by_cases hgt : 1 / 2 < x - ⌊x⌋
    · rw [if_pos hgt]
      push_cast
      constructor <;> linarith
    · rw [if_neg hgt]
      have hx : x - ⌊x⌋ = 1 / 2 := le_antisymm (not_lt.mp hgt) (not_lt.mp hc)
      by_cases hev : ⌊x⌋ % 2 = 0
      · rw [if_pos hev]
        constructor <;> linarith
      · rw [if_neg hev]
        push_cast
        constructor <;> linarith

theorem two_zpow_pos (k : Int) : (0 : ℚ) < 2 ^ k := zpow_pos (by norm_num) k

/-- The unit in the last place of a non-zero `q` below `2^(e+1)`. -/
theorem ulpExp_le (q : ℚ) (hq : q ≠ 0) (e : Int) (he : -1022 ≤ e) (h : |q| < 2 ^ (e + 1)) :
    Dbl.ulpExp q ≤ e - 52 := by
  unfold Dbl.ulpExp
  have h0 : 0 < |q| := abs_pos.mpr hq
  have hlog := (Int.lt_zpow_iff_log_lt (b := 2) (by norm_num) h0).mp (by exact_mod_cast h)
  have : max (Int.log 2 |q|) (-1022) ≤ e := max_le (by omega) he
  omega

theorem ulpExp_ge (q : ℚ) : -1074 ≤ Dbl.ulpExp q := by
  unfold Dbl.ulpExp
  have : -1022 ≤ max (Int.log 2 |q|) (-1022) := le_max_right _ _
  omega

theorem ulpExp_eq (q : ℚ) (e : Int) (he : -1022 ≤ e) (h1 : 2 ^ e ≤ |q|) (h2 : |q| < 2 ^ (e + 1)) :
    Dbl.ulpExp q = e - 52 := by
  have hpos : 0 < |q| := lt_of_lt_of_le (two_zpow_pos e) h1
  have hle := (Int.zpow_le_iff_le_log (b := 2) (by norm_num) hpos).mp (by exact_mod_cast h1)
  have hlt := (Int.lt_zpow_iff_log_lt (b := 2) (by norm_num) hpos).mp (by exact_mod_cast h2)
  have hlog : Int.log 2 |q| = e := by omega
  unfold Dbl.ulpExp
  rw [hlog, max_eq_left he]

theorem roundNearest_zero : Dbl.roundNearest 0 = Dbl.fin 0 := by
  unfold Dbl.roundNearest
  have h : Dbl.roundHalfEven (0 / 2 ^ Dbl.ulpExp 0) = 0 := by
    rw [zero_div]
    exact roundHalfEven_intCast 0
  have hov : ¬ ((2 : ℚ) ^ (1024 : Int) ≤ |(((0 : Int) : ℚ)) * 2 ^ Dbl.ulpExp 0|) := by
    rw [not_le]
    simp only [Int.cast_zero, zero_mul, abs_zero]
    exact two_zpow_pos 1024
  rw [h, if_neg hov]
  simp

/-- A rational `z * 2^k` with `|z| < 2^53` in the exponent range of binary64 is
a double: rounding leaves it alone. -/
theorem roundNearest_dyadic (z k : Int) (hz : |z| < 2 ^ 53) (hk : -1074 ≤ k) (hk2 : k ≤ 970) :
    Dbl.roundNearest ((z : ℚ) * 2 ^ k) = Dbl.fin ((z : ℚ) * 2 ^ k) := by
  by_cases hz0 : z = 0
  · subst hz0
    simp only [Int.cast_zero, zero_mul]
    exact roundNearest_zero
  have hzq' : |(z : ℚ)| < 2 ^ (53 : ℕ) := by exact_mod_cast hz
  have hzq : |(z : ℚ)| < 2 ^ (53 : Int) := by
    rw [show (53 : Int) = ((53 : ℕ) : Int) by rfl, zpow_natCast]
    exact hzq'
  have habs : |(z : ℚ) * 2 ^ k| = |(z : ℚ)| * 2 ^ k := by
    rw [abs_mul, abs_of_pos (two_zpow_pos k)]
  have hq0 : (z : ℚ) * 2 ^ k ≠ 0 :=
    mul_ne_zero (by exact_mod_cast hz0) (ne_of_gt (two_zpow_pos k))
  have hbound : |(z : ℚ) * 2 ^ k| < 2 ^ (53 + k) := by
    rw [habs, zpow_add₀ (by norm_num : (2 : ℚ) ≠ 0)]
    exact mul_lt_mul_of_pos_right hzq (two_zpow_pos k)
  -- the unit in the last place divides the value
  have hp : Dbl.ulpExp ((z : ℚ) * 2 ^ k) ≤ k := by
    rcases le_or_lt (-1022) (k + 52) with hc | hc
    · have := ulpExp_le _ hq0 (k + 52) hc (by rw [show k + 52 + 1 = 53 + k by ring]; exact hbound)
      omega
    · have hlt : |(z : ℚ) * 2 ^ k| < 2 ^ (-1022 + 1 : Int) :=
        lt_of_lt_of_le hbound (zpow_le_zpow_right₀ (by norm_num) (by omega))
      have := ulpExp_le _ hq0 (-1022) (le_refl _) hlt
      omega
  have hov : ¬ ((2 : ℚ) ^ (1024 : Int) ≤ |(z : ℚ) * 2 ^ k|) := by
    rw [not_le]
    exact lt_of_lt_of_le hbound (zpow_le_zpow_right₀ (by norm_num) (by omega))
  unfold Dbl.roundNearest
  generalize Dbl.ulpExp ((z : ℚ) * 2 ^ k) = p at hp ⊢
  obtain ⟨m, hm⟩ : ∃ m : Nat, k = p + m := ⟨(k - p).toNat, by omega⟩
  have h2 : (2 : ℚ) ^ k = 2 ^ p * 2 ^ m := by
    rw [hm, zpow_add₀ (by norm_num : (2 : ℚ) ≠ 0), zpow_natCast]
  have hp0 : (2 : ℚ) ^ p ≠ 0 := ne_of_gt (two_zpow_pos p)
  have hquot : (z : ℚ) * 2 ^ k / 2 ^ p = ((z * 2 ^ m : Int) : ℚ) := by
    rw [h2, div_eq_iff hp0]
    push_cast
    ring
  have hback : ((z * 2 ^ m : Int) : ℚ) * 2 ^ p = (z : ℚ) * 2 ^ k := by
    rw [h2]
    push_cast
    ring
  rw [hquot, roundHalfEven_intCast, hback, if_neg hov]

/-- Rounding evaluated: in the binade `[2^e, 2^(e+1))` the result is the
multiple `n * 2^(e-52)` whose `n` is within one half of `q / 2^(e-52)`. -/
theorem roundNearest_of_near (q : ℚ) (e n : Int) (he : -1022 ≤ e) (he2 : e ≤ 1022)
    (h1 : 2 ^ e ≤ |q|) (h2 : |q| < 2 ^ (e + 1)) (hn : |q / 2 ^ (e - 52) - n| < 1 / 2) :
    Dbl.roundNearest q = Dbl.fin ((n : ℚ) * 2 ^ (e - 52)) := by
  have hp := ulpExp_eq q e he h1 h2
  have hp0 : (0 : ℚ) < 2 ^ (e - 52) := two_zpow_pos _
  have hov : ¬ ((2 : ℚ) ^ (1024 : Int) ≤ |(n : ℚ) * 2 ^ (e - 52)|) := by
    rw [not_le]
    have hq : |q / 2 ^ (e - 52)| < 2 ^ (53 : Int) := by
      rw [abs_div, abs_of_pos hp0, div_lt_iff₀ hp0, ← zpow_add₀ (by norm_num : (2 : ℚ) ≠ 0)]
      rw [show (53 : Int) + (e - 52) = e + 1 by ring]
      exact h2
    have hnb : |(n : ℚ)| < 2 ^ (53 : Int) + 1 := by
      have h3 := abs_sub_abs_le_abs_sub (n : ℚ) (q / 2 ^ (e - 52))
      rw [abs_sub_comm] at h3
      linarith
    rw [abs_mul, abs_of_pos hp0]
    calc |(n : ℚ)| * 2 ^ (e - 52) < (2 ^ (53 : Int) + 1) * 2 ^ (e - 52) :=
          mul_lt_mul_of_pos_right hnb hp0
      _ ≤ (2 ^ (54 : Int)) * 2 ^ (e - 52) := by
          apply mul_le_mul_of_nonneg_right _ hp0.le
          norm_num
      _ = 2 ^ (54 + (e - 52)) := by rw [zpow_add₀ (by norm_num : (2 : ℚ) ≠ 0)]
      _ ≤ 2 ^ (1024 : Int) := zpow_le_zpow_right₀ (by norm_num) (by omega)
  unfold Dbl.roundNearest
  rw [hp, roundHalfEven_near _ n hn, if_neg hov]

/-- The relative error of rounding: half a unit in the last place. -/
theorem roundNearest_error (q : ℚ) (hq : |q| ≤ 2 ^ (1000 : Int)) :
    ∃ r : ℚ, Dbl.roundNearest q = Dbl.fin r ∧ |r - q| ≤ |q| / 2 ^ (53 : Int) + 2 ^ (-1075 : Int) := by
  by_cases hq00 : q = 0
  · subst hq00
    refine ⟨0, roundNearest_zero, ?_⟩
    simp only [sub_self, abs_zero, zero_div, zero_add]
    exact (two_zpow_pos _).le
  have hp0 : (0 : ℚ) < 2 ^ Dbl.ulpExp q := two_zpow_pos _
  -- size of the unit in the last place
  have hulp : (2 : ℚ) ^ Dbl.ulpExp q ≤ |q| / 2 ^ (52 : Int) + 2 ^ (-1074 : Int) := by
    unfold Dbl.ulpExp
    rcases le_total (Int.log 2 |q|) (-1022) with hc | hc
    · rw [max_eq_right hc]
      have : (0 : ℚ) ≤ |q| / 2 ^ (52 : Int) := div_nonneg (abs_nonneg q) (two_zpow_pos 52).le
      norm_num at this ⊢
      linarith
    · rw [max_eq_left hc]
      have hq0 : 0 < |q| := abs_pos.mpr hq00
      have := Int.zpow_log_le_self (b := 2) (by norm_num) hq0
      have h3 : (2 : ℚ) ^ (Int.log 2 |q| - 52) = 2 ^ Int.log 2 |q| / 2 ^ (52 : Int) := by
        rw [zpow_sub₀ (by norm_num : (2 : ℚ) ≠ 0)]
      rw [h3]
      have h4 : (2 : ℚ) ^ Int.log 2 |q| / 2 ^ (52 : Int) ≤ |q| / 2 ^ (52 : Int) :=
        div_le_div_of_nonneg_right (by exact_mod_cast this) (two_zpow_pos 52).le
      have : (0 : ℚ) < 2 ^ (-1074 : Int) := two_zpow_pos _
      linarith
  have herr := roundHalfEven_error (q / 2 ^ Dbl.ulpExp q)
  have hdist : |(Dbl.roundHalfEven (q / 2 ^ Dbl.ulpExp q) : ℚ) * 2 ^ Dbl.ulpExp q - q| ≤
      2 ^ Dbl.ulpExp q / 2 := by
    have e : (Dbl.roundHalfEven (q / 2 ^ Dbl.ulpExp q) : ℚ) * 2 ^ Dbl.ulpExp q - q =
        -((q / 2 ^ Dbl.ulpExp q - Dbl.roundHalfEven (q / 2 ^ Dbl.ulpExp q)) *
          2 ^ Dbl.ulpExp q) := by
      field_simp
      ring
    rw [e, abs_neg, abs_mul, abs_of_pos hp0]
    calc |q / 2 ^ Dbl.ulpExp q - ↑(Dbl.roundHalfEven (q / 2 ^ Dbl.ulpExp q))| * 2 ^ Dbl.ulpExp q
        ≤ 1 / 2 * 2 ^ Dbl.ulpExp q := mul_le_mul_of_nonneg_right herr hp0.le
      _ = 2 ^ Dbl.ulpExp q / 2 := by ring
  have hfinal : |(Dbl.roundHalfEven (q / 2 ^ Dbl.ulpExp q) : ℚ) * 2 ^ Dbl.ulpExp q - q| ≤
      |q| / 2 ^ (53 : Int) + 2 ^ (-1075 : Int) := by
    have h53 : |q| / 2 ^ (53 : Int) = |q| / 2 ^ (52 : Int) / 2 := by
      rw [show (53 : Int) = 52 + 1 by norm_num, zpow_add₀ (by norm_num : (2 : ℚ) ≠ 0)]
      field_simp
    have h1075 : (2 : ℚ) ^ (-1075 : Int) = 2 ^ (-1074 : Int) / 2 := by
      rw [show (-1075 : Int) = -1074 - 1 by norm_num, zpow_sub₀ (by norm_num : (2 : ℚ) ≠ 0)]
      norm_num
    rw [h53, h1075]
    linarith
  have hov : ¬ ((2 : ℚ) ^ (1024 : Int) ≤
      |(Dbl.roundHalfEven (q / 2 ^ Dbl.ulpExp q) : ℚ) * 2 ^ Dbl.ulpExp q|) := by
    rw [not_le]
    have h3 := abs_sub_abs_le_abs_sub
      ((Dbl.roundHalfEven (q / 2 ^ Dbl.ulpExp q) : ℚ) * 2 ^ Dbl.ulpExp q) q
    have h4 : |q| / 2 ^ (53 : Int) ≤ |q| := by
      apply div_le_self (abs_nonneg q)
      exact one_le_zpow₀ (by norm_num) (by norm_num)
    have h5 : (2 : ℚ) ^ (-1075 : Int) ≤ 2 ^ (1000 : Int) :=
      zpow_le_zpow_right₀ (by norm_num) (by norm_num)
    have h6 : (2 : ℚ) ^ (1000 : Int) * 3 < 2 ^ (1024 : Int) := by
      rw [show (1024 : Int) = 1000 + 24 by norm_num, zpow_add₀ (by norm_num : (2 : ℚ) ≠ 0)]
      have : (0 : ℚ) < 2 ^ (1000 : Int) := two_zpow_pos _
      have h24 : (3 : ℚ) < 2 ^ (24 : Int) := by norm_num
      nlinarith
    linarith
  refine ⟨_, ?_, hfinal⟩
  unfold Dbl.roundNearest
  rw [if_neg hov]

/-- Integers and half-integers below `2^52` in magnitude are doubles. -/
theorem roundNearest_half_int (q : ℚ) (z : Int) (hq : q = (z : ℚ) / 2) (hz : |z| < 2 ^ 53) :
    Dbl.roundNearest q = Dbl.fin q := by
  have e : q = (z : ℚ) * 2 ^ (-1 : Int) := by
    rw [hq, zpow_neg_one]
    ring
  rw [e]
  exact roundNearest_dyadic z (-1) hz (by norm_num) (by norm_num)

/-- Rounding a result of magnitude at most `2^30` moves it by at most
`2^-22`. -/
theorem roundNearest_small (q : ℚ) (hq : |q| ≤ 1073741824) :
    ∃ r : ℚ, Dbl.roundNearest q = Dbl.fin r ∧ |r - q| ≤ 1 / 4194304 := by
  have h30 : (1073741824 : ℚ) = 2 ^ (30 : Int) := by norm_num
  have hle : |q| ≤ 2 ^ (1000 : Int) := by
    rw [h30] at hq
    exact le_trans hq (zpow_le_zpow_right₀ (by norm_num) (by norm_num))
  obtain ⟨r, hr, herr⟩ := roundNearest_error q hle
  refine ⟨r, hr, le_trans herr ?_⟩
  have h1 : |q| / 2 ^ (53 : Int) ≤ 1073741824 / 2 ^ (53 : Int) :=
    div_le_div_of_nonneg_right hq (two_zpow_pos 53).le
  have h2 : (2 : ℚ) ^ (-1075 : Int) ≤ 2 ^ (-23 : Int) :=
    zpow_le_zpow_right₀ (by norm_num) (by norm_num)
  have h3 : (1073741824 : ℚ) / 2 ^ (53 : Int) = 2 ^ (-23 : Int) := by norm_num
  have h4 : (1 : ℚ) / 4194304 = 2 ^ (-23 : Int) + 2 ^ (-23 : Int) := by norm_num
  rw [h4]
  linarith

/-! ## Arithmetic of finite doubles -/

theorem Dbl.fin_add (a b : ℚ) : Dbl.fin a + Dbl.fin b = Dbl.roundNearest (a + b) := rfl

theorem Dbl.fin_sub (a b : ℚ) : Dbl.fin a - Dbl.fin b = Dbl.roundNearest (a - b) := by
  show Dbl.add (Dbl.fin a) (Dbl.neg (Dbl.fin b)) = Dbl.roundNearest (a - b)
  simp [Dbl.add, Dbl.neg, sub_eq_add_neg]

theorem Dbl.fin_mul (a b : ℚ) : Dbl.fin a * Dbl.fin b = Dbl.roundNearest (a * b) := rfl

theorem Dbl.fin_div (a b : ℚ) (hb : b ≠ 0) :
    Dbl.fin a / Dbl.fin b = Dbl.roundNearest (a / b) := by
  show Dbl.div (Dbl.fin a) (Dbl.fin b) = Dbl.roundNearest (a / b)
  simp [Dbl.div, hb]

theorem Dbl.fin_div_hundred (a : ℚ) : Dbl.fin a / Dbl.fin 100 = Dbl.roundNearest (a / 100) :=
  Dbl.fin_div a 100 (by norm_num)

theorem Dbl.truncQ_of_nonneg {q : ℚ} (h : 0 ≤ q) : Dbl.truncQ q = ⌊q⌋ := by
  simp [Dbl.truncQ, h]

/-- The cast to `uint8_t` of a finite value in its range is its floor. -/
theorem Dbl.toU8_fin {q : ℚ} (h0 : 0 ≤ q) (h1 : q < 256) :
    ((Dbl.toU8 (Dbl.fin q) : Nat) : Int) = ⌊q⌋ := by
  have hf0 : (0 : Int) ≤ ⌊q⌋ := Int.floor_nonneg.mpr h0
  have hf1 : ⌊q⌋ < 256 := Int.floor_lt.mpr (by exact_mod_cast h1)
  show (((Dbl.truncQ q % 256).toNat : Nat) : Int) = ⌊q⌋
  rw [Dbl.truncQ_of_nonneg h0, Int.emod_eq_of_lt hf0 hf1, Int.toNat_of_nonneg hf0]

/-- On finite values the conversion of `adjust.c` is the saturation of the
specification. -/
theorem sat1_fin (r : ℚ) : sat1 (Dbl.fin r) = clampR r := by
  unfold sat1 clampR
  simp only [Dbl.lt, Dbl.ge, decide_eq_true_eq]
  by_cases h1 : r < 1
  · have h255 : r < 255 := by linarith
    have h1n : ¬ (1 ≤ r) := not_le.mpr h1
    simp [h1, h255, h1n]
  · have h1n : 1 ≤ r := not_lt.mp h1
    by_cases h255 : r < 255
    · have hn : ¬ (255 ≤ r) := not_le.mpr h255
      have h0 : 0 ≤ r := by linarith
      have hlt : r < 256 := by linarith
      have e := Dbl.toU8_fin h0 hlt
      have hf0 : (0 : Int) ≤ ⌊r⌋ := Int.floor_nonneg.mpr h0
      simp only [h1, h255, h1n, hn, if_true, if_false]
      rw [Dbl.truncQ_of_nonneg h0]
      omega
    · have hn : 255 ≤ r := not_lt.mp h255
      simp [h1, h255, hn]

/-- On finite values the conversion of `adjust.c`, applied to `x + 0.5`, is
the saturated rounding of `x`. -/
theorem sat1_fin_roundSat (x : ℚ) : ((sat1 (Dbl.fin (x + 1 / 2)) : Nat) : Int) = roundSat x := by
  unfold sat1 roundSat
  simp only [Dbl.lt, Dbl.ge, decide_eq_true_eq]
  by_cases h255 : x + 1 / 2 < 255
  · have hf255 : ⌊x + 1 / 2⌋ < 255 := Int.floor_lt.mpr (by exact_mod_cast h255)
    by_cases h1 : 1 ≤ x + 1 / 2
    · have h0 : 0 ≤ x + 1 / 2 := by linarith
      have hlt : x + 1 / 2 < 256 := by linarith
      have hf0 : (0 : Int) ≤ ⌊x + 1 / 2⌋ := Int.floor_nonneg.mpr h0
      simp only [h255, h1, if_true]
      rw [Dbl.toU8_fin h0 hlt]
      omega
    · have hf1 : ⌊x + 1 / 2⌋ < 1 := Int.floor_lt.mpr (by exact_mod_cast not_le.mp h1)
      simp only [h255, h1, if_true, if_false]
      omega
  · have hf255 : (255 : Int) ≤ ⌊x + 1 / 2⌋ :=
      Int.le_floor.mpr (by exact_mod_cast not_lt.mp h255)
    simp only [h255, if_false]
    omega

/-- On finite non-negative values the conversion of `tweak.c`, applied to
`x + 0.5`, is the rounding of `x` saturated at 255. -/
theorem satHi_fin_round (x : ℚ) (hx : 0 ≤ x) :
    ((satHi (Dbl.fin (x + 1 / 2)) : Nat) : Int) = min 255 ⌊x + 1 / 2⌋ := by
  unfold satHi
  simp only [Dbl.lt, decide_eq_true_eq]
  by_cases h255 : x + 1 / 2 < 255
  · have hf255 : ⌊x + 1 / 2⌋ < 255 := Int.floor_lt.mpr (by exact_mod_cast h255)
    have h0 : 0 ≤ x + 1 / 2 := by linarith
    have hlt : x + 1 / 2 < 256 := by linarith
    simp only [h255, if_true]
    rw [Dbl.toU8_fin h0 hlt]
    omega
  · have hf255 : (255 : Int) ≤ ⌊x + 1 / 2⌋ :=
      Int.le_floor.mpr (by exact_mod_cast not_lt.mp h255)
    simp only [h255, if_false]
    omega

/-! ## Loops and stores -/

theorem forLoop_zero {σ : Type} (body : Nat → σ → σ) (s : σ) : forLoop 0 body s = s := rfl

theorem forLoop_succ {σ : Type} (n : Nat) (body : Nat → σ → σ) (s : σ) :
    forLoop (n + 1) body s = body n (forLoop n body s) := by
  simp [forLoop, List.range_succ, List.foldl_append]

theorem store_same (m : Buf) (a v : Nat) : store m a v a = v := by
  simp [store]

theorem store_other (m : Buf) (a v k : Nat) (h : k ≠ a) : store m a v k = m k := by
  simp [store, h]

/-- A run of `w` stores at consecutive offsets from `b`. -/
theorem forLoop_store (h : Nat → Nat) (b w : Nat) (d0 : Buf) (o : Nat) :
    forLoop w (fun x d => store d (b + x) (h x)) d0 o =
      if b ≤ o ∧ o < b + w then h (o - b) else d0 o := by
  induction w with
  | zero =>
      have : ¬ (b ≤ o ∧ o < b + 0) := by omega
      rw [forLoop_zero, if_neg this]
  | succ n ih =>
      rw [forLoop_succ]
      by_cases ho : o = b + n
      · subst ho
        have : b ≤ b + n ∧ b + n < b + (n + 1) := by omega
        simp [store_same]
      · rw [store_other _ _ _ _ ho, ih]
        by_cases hin : b ≤ o ∧ o < b + n
        · have : b ≤ o ∧ o < b + (n + 1) := by omega
          simp [hin, this]
        · have : ¬ (b ≤ o ∧ o < b + (n + 1)) := by omega
          simp [hin, this]

/-- A run of `w` stores at the offsets `0..w-1`. -/
theorem forLoop_store_index (h : Nat → Nat) (w : Nat) (d0 : Buf) (o : Nat) :
    forLoop w (fun x d => store d x (h x)) d0 o = if o < w then h o else d0 o := by
  have e : (fun (x : Nat) (d : Buf) => store d x (h x)) =
      (fun (x : Nat) (d : Buf) => store d (0 + x) (h x)) := by
    funext x d
    rw [Nat.zero_add]
  rw [e, forLoop_store h 0 w d0 o]
  simp

theorem inRows_zero (pitch width o : Nat) : ¬ inRows pitch width 0 o := by
  rintro ⟨r, hr, _⟩
  omega

theorem inRows_succ (pitch width n o : Nat) :
    inRows pitch width (n + 1) o ↔
      inRows pitch width n o ∨ (n * pitch ≤ o ∧ o < n * pitch + width) := by
  constructor
  · rintro ⟨r, hr, h1, h2⟩
    by_cases hrn : r = n
    · subst hrn
      exact Or.inr ⟨h1, h2⟩
    · exact Or.inl ⟨r, by omega, h1, h2⟩
  · rintro (⟨r, hr, h1, h2⟩ | ⟨h1, h2⟩)
    · exact ⟨r, by omega, h1, h2⟩
    · exact ⟨n, by omega, h1, h2⟩

/-- An offset `row * pitch + col` with `col < width` is in the rows. -/
theorem inRows_of_lt {pitch width n row col : Nat} (hr : row < n) (hc : col < width) :
    inRows pitch width n (row * pitch + col) :=
  ⟨row, hr, by omega, by omega⟩

/-- A padding offset of a row (`width ≤ col < pitch`) is in no row. -/
theorem not_inRows_padding {pitch width n row col : Nat}
    (hc1 : width ≤ col) (hc2 : col < pitch) : ¬ inRows pitch width n (row * pitch + col) := by
  rintro ⟨r, _, h1, h2⟩
  rcases Nat.lt_trichotomy r row with h | h | h
  · have : (r + 1) * pitch ≤ row * pitch := Nat.mul_le_mul_right _ h
    rw [Nat.add_mul] at this
    omega
  · subst h
    omega
  · have : (row + 1) * pitch ≤ r * pitch := Nat.mul_le_mul_right _ h
    rw [Nat.add_mul] at this
    omega

/-- The state of the table loop after `n` rows. -/
theorem lutLoop_state (lut : Buf) (width stride : Nat) (src dst : Buf) (n : Nat) :
    let st := forLoop n
      (fun _ st => PlaneState.mk (st.srcOff + stride) (st.dstOff + stride)
        (forLoop width
          (fun x d => store d (st.dstOff + x) (lut (src (st.srcOff + x)))) st.dst))
      (PlaneState.mk 0 0 dst)
    st.srcOff = n * stride ∧ st.dstOff = n * stride ∧
      (∀ o, inRows stride width n o → st.dst o = lut (src o)) ∧
      (∀ o, ¬ inRows stride width n o → st.dst o = dst o) := by
  induction n with
  | zero =>
      refine ⟨by simp [forLoop_zero], by simp [forLoop_zero], ?_, ?_⟩
      · intro o ho
        exact absurd ho (inRows_zero _ _ _)
      · intro o _
        rfl
  | succ n ih =>
      obtain ⟨h1, h2, h3, h4⟩ := ih
      simp only [forLoop_succ]
      refine ⟨by simp only [h1]; ring, by simp only [h2]; ring, ?_, ?_⟩
      · intro o ho
        rw [h1, h2, forLoop_store (fun x => lut (src (n * stride + x)))]
        by_cases hrow : n * stride ≤ o ∧ o < n * stride + width
        · rw [if_pos hrow]
          congr 2
          omega
        · rw [if_neg hrow]
          rcases (inRows_succ _ _ _ _).1 ho with h | h
          · exact h3 o h
          · exact absurd h hrow
      · intro o ho
        rw [h1, h2, forLoop_store (fun x => lut (src (n * stride + x)))]
        have hno : ¬ inRows stride width n o := fun h => ho ((inRows_succ _ _ _ _).2 (Or.inl h))
        have hrow : ¬ (n * stride ≤ o ∧ o < n * stride + width) :=
          fun h => ho ((inRows_succ _ _ _ _).2 (Or.inr h))
        rw [if_neg hrow]
        exact h4 o hno

theorem lutLoop_inRows (lut : Buf) (width height stride : Nat) (src dst : Buf) (o : Nat)
    (h : inRows stride width height o) :
    lutLoop lut width height stride src dst o = lut (src o) :=
  (lutLoop_state lut width stride src dst height).2.2.1 o h

theorem lutLoop_not_inRows (lut : Buf) (width height stride : Nat) (src dst : Buf) (o : Nat)
    (h : ¬ inRows stride width height o) :
    lutLoop lut width height stride src dst o = dst o :=
  (lutLoop_state lut width stride src dst height).2.2.2 o h

/-- The state of the block copy after `n` rows, for equal pitches. -/
theorem vs_bitblt_state (dstp srcp : Buf) (pitch row_size : Nat) (n : Nat) :
    let st := forLoop n
      (fun _ st => PlaneState.mk (st.srcOff + pitch) (st.dstOff + pitch)
        (memcpy st.dst st.dstOff srcp st.srcOff row_size))
      (PlaneState.mk 0 0 dstp)
    st.srcOff = n * pitch ∧ st.dstOff = n * pitch ∧
      (∀ o, inRows pitch row_size n o → st.dst o = srcp o) ∧
      (∀ o, ¬ inRows pitch row_size n o → st.dst o = dstp o) := by
  induction n with
  | zero =>
      refine ⟨by simp [forLoop_zero], by simp [forLoop_zero], ?_, ?_⟩
      · intro o ho
        exact absurd ho (inRows_zero _ _ _)
      · intro o _
        rfl
  | succ n ih =>
      obtain ⟨h1, h2, h3, h4⟩ := ih
      simp only [forLoop_succ]
      refine ⟨by simp only [h1]; ring, by simp only [h2]; ring, ?_, ?_⟩
      · intro o ho
        rw [h1, h2, memcpy, forLoop_store (fun x => srcp (n * pitch + x))]
        by_cases hrow : n * pitch ≤ o ∧ o < n * pitch + row_size
        · rw [if_pos hrow]
          congr 1
          omega
        · rw [if_neg hrow]
          rcases (inRows_succ _ _ _ _).1 ho with h | h
          · exact h3 o h
          · exact absurd h hrow
      · intro o ho
        rw [h1, h2, memcpy, forLoop_store (fun x => srcp (n * pitch + x))]
        have hno : ¬ inRows pitch row_size n o :=
          fun h => ho ((inRows_succ _ _ _ _).2 (Or.inl h))
        have hrow : ¬ (n * pitch ≤ o ∧ o < n * pitch + row_size) :=
          fun h => ho ((inRows_succ _ _ _ _).2 (Or.inr h))
        rw [if_neg hrow]
        exact h4 o hno

theorem vs_bitblt_inRows (dstp srcp : Buf) (pitch row_size height o : Nat)
    (h : inRows pitch row_size height o) :
    vs_bitblt dstp pitch srcp pitch row_size height o = srcp o :=
  (vs_bitblt_state dstp srcp pitch row_size height).2.2.1 o h

theorem vs_bitblt_not_inRows (dstp srcp : Buf) (pitch row_size height o : Nat)
    (h : ¬ inRows pitch row_size height o) :
    vs_bitblt dstp pitch srcp pitch row_size height o = dstp o :=
  (vs_bitblt_state dstp srcp pitch row_size height).2.2.2 o h

/-- One row of the rotation loop, plane by plane. -/
theorem rotateRow_eq (d : adjustData) (usrc vsrc : Buf) (st : ChromaState) :
    rotateRow d usrc vsrc st =
      (forLoop d.chromaWidth
          (fun x u => store u (st.udstOff + x)
            (rotate d.mult1 d.mult2 (usrc (st.usrcOff + x)) (vsrc (st.vsrcOff + x))).1) st.udst,
        forLoop d.chromaWidth
          (fun x v => store v (st.vdstOff + x)
            (rotate d.mult1 d.mult2 (usrc (st.usrcOff + x)) (vsrc (st.vsrcOff + x))).2)
          st.vdst) := by
  unfold rotateRow
  induction d.chromaWidth with
  | zero => rfl
  | succ n ih => simp only [forLoop_succ, ih]

/-- One row of the rotation loop, read at an offset of each plane. -/
theorem rotateRow_apply (d : adjustData) (usrc vsrc : Buf) (st : ChromaState) (o : Nat) :
    (rotateRow d usrc vsrc st).1 o =
        (if st.udstOff ≤ o ∧ o < st.udstOff + d.chromaWidth then
          (rotate d.mult1 d.mult2 (usrc (st.usrcOff + (o - st.udstOff)))
            (vsrc (st.vsrcOff + (o - st.udstOff)))).1
        else st.udst o) ∧
      (rotateRow d usrc vsrc st).2 o =
        (if st.vdstOff ≤ o ∧ o < st.vdstOff + d.chromaWidth then
          (rotate d.mult1 d.mult2 (usrc (st.usrcOff + (o - st.vdstOff)))
            (vsrc (st.vsrcOff + (o - st.vdstOff)))).2
        else st.vdst o) := by
  rw [rotateRow_eq]
  exact ⟨forLoop_store
      (fun x => (rotate d.mult1 d.mult2 (usrc (st.usrcOff + x)) (vsrc (st.vsrcOff + x))).1)
      st.udstOff d.chromaWidth st.udst o,
    forLoop_store
      (fun x => (rotate d.mult1 d.mult2 (usrc (st.usrcOff + x)) (vsrc (st.vsrcOff + x))).2)
      st.vdstOff d.chromaWidth st.vdst o⟩

/-- One more row of the rotation loop keeps the description of its state. -/
theorem rotateLoop_step (d : adjustData) (usrc vsrc udst vdst : Buf) (n : Nat)
    (st : ChromaState)
    (hoff : st.usrcOff = n * d.stride ∧ st.vsrcOff = n * d.stride ∧
      st.udstOff = n * d.stride ∧ st.vdstOff = n * d.stride)
    (hin : ∀ o, inRows d.stride d.chromaWidth n o →
      st.udst o = (rotate d.mult1 d.mult2 (usrc o) (vsrc o)).1 ∧
        st.vdst o = (rotate d.mult1 d.mult2 (usrc o) (vsrc o)).2)
    (hout : ∀ o, ¬ inRows d.stride d.chromaWidth n o → st.udst o = udst o ∧ st.vdst o = vdst o) :
    (∀ o, inRows d.stride d.chromaWidth (n + 1) o →
      (rotateRow d usrc vsrc st).1 o = (rotate d.mult1 d.mult2 (usrc o) (vsrc o)).1 ∧
        (rotateRow d usrc vsrc st).2 o = (rotate d.mult1 d.mult2 (usrc o) (vsrc o)).2) ∧
      (∀ o, ¬ inRows d.stride d.chromaWidth (n + 1) o →
        (rotateRow d usrc vsrc st).1 o = udst o ∧ (rotateRow d usrc vsrc st).2 o = vdst o) := by
  obtain ⟨h1, h2, h3, h4⟩ := hoff
  constructor
  · intro o ho
    rw [(rotateRow_apply d usrc vsrc st o).1, (rotateRow_apply d usrc vsrc st o).2, h1, h2, h3, h4]
    by_cases hrow : n * d.stride ≤ o ∧ o < n * d.stride + d.chromaWidth
    · have e : n * d.stride + (o - n * d.stride) = o := by omega
      rw [if_pos hrow, if_pos hrow, e]
      exact ⟨rfl, rfl⟩
    · rw [if_neg hrow, if_neg hrow]
      rcases (inRows_succ _ _ _ _).1 ho with h | h
      · exact hin o h
      · exact absurd h hrow
  · intro o ho
    rw [(rotateRow_apply d usrc vsrc st o).1, (rotateRow_apply d usrc vsrc st o).2, h1, h2, h3, h4]
    have hno : ¬ inRows d.stride d.chromaWidth n o :=
      fun h => ho ((inRows_succ _ _ _ _).2 (Or.inl h))
    have hrow : ¬ (n * d.stride ≤ o ∧ o < n * d.stride + d.chromaWidth) :=
      fun h => ho ((inRows_succ _ _ _ _).2 (Or.inr h))
    rw [if_neg hrow, if_neg hrow]
    exact hout o hno

/-- The state of the rotation loop after `n` rows: the rows are `d.stride`
apart in all four planes. -/
theorem rotateLoop_state (d : adjustData) (usrc vsrc udst vdst : Buf) (n : Nat) :
    let st := forLoop n
      (fun _ st =>
        ChromaState.mk (st.usrcOff + d.stride) (st.vsrcOff + d.stride)
          (st.udstOff + d.stride) (st.vdstOff + d.stride)
          (rotateRow d usrc vsrc st).1 (rotateRow d usrc vsrc st).2)
      (ChromaState.mk 0 0 0 0 udst vdst)
    (st.usrcOff = n * d.stride ∧ st.vsrcOff = n * d.stride ∧
        st.udstOff = n * d.stride ∧ st.vdstOff = n * d.stride) ∧
      (∀ o, inRows d.stride d.chromaWidth n o →
        st.udst o = (rotate d.mult1 d.mult2 (usrc o) (vsrc o)).1 ∧
          st.vdst o = (rotate d.mult1 d.mult2 (usrc o) (vsrc o)).2) ∧
      (∀ o, ¬ inRows d.stride d.chromaWidth n o → st.udst o = udst o ∧ st.vdst o = vdst o) := by
  induction n with
  | zero =>
      refine ⟨by simp [forLoop_zero], ?_, ?_⟩
      · intro o ho
        exact absurd ho (inRows_zero _ _ _)
      · intro o _
        exact ⟨rfl, rfl⟩
  | succ n ih =>
      obtain ⟨hoff, hin, hout⟩ := ih
      have hstep := rotateLoop_step d usrc vsrc udst vdst n _ hoff hin hout
      obtain ⟨h1, h2, h3, h4⟩ := hoff
      simp only [forLoop_succ]
      refine ⟨⟨by simp only [h1]; ring, by simp only [h2]; ring, by simp only [h3]; ring,
        by simp only [h4]; ring⟩, hstep.1, hstep.2⟩

theorem rotateLoop_inRows (d : adjustData) (usrc vsrc udst vdst : Buf) (o : Nat)
    (h : inRows d.stride d.chromaWidth d.chromaHeight o) :
    (rotateLoop d usrc vsrc udst vdst).1 o = (rotate d.mult1 d.mult2 (usrc o) (vsrc o)).1 ∧
      (rotateLoop d usrc vsrc udst vdst).2 o = (rotate d.mult1 d.mult2 (usrc o) (vsrc o)).2 :=
  (rotateLoop_state d usrc vsrc udst vdst d.chromaHeight).2.1 o h

theorem rotateLoop_not_inRows (d : adjustData) (usrc vsrc udst vdst : Buf) (o : Nat)
    (h : ¬ inRows d.stride d.chromaWidth d.chromaHeight o) :
    (rotateLoop d usrc vsrc udst vdst).1 o = udst o ∧
      (rotateLoop d usrc vsrc udst vdst).2 o = vdst o :=
  (rotateLoop_state d usrc vsrc udst vdst d.chromaHeight).2.2 o h

/-! ## Lookup-table application -/

/-- C1: the table loop shared by the luma stage of `adjustGetFrame` and
`tweakGetFrame` and by the three channels of `rgbGetFrame` sets
`dst[row*stride+col] = lut[src[row*stride+col]]` for every `row < height` and
`col < width`, and leaves every padding byte of the destination
(`width ≤ col < stride`) as it was, whatever the source holds. -/
theorem lutLoop_rows_and_padding (lut src dst : Buf) (width height stride row col : Nat)
    (hrow : row < height) :
    (col < width →
        lutLoop lut width height stride src dst (row * stride + col) =
          lut (src (row * stride + col))) ∧
      (width ≤ col → col < stride →
        lutLoop lut width height stride src dst (row * stride + col) =
          dst (row * stride + col)) ∧
      (∀ (d : adjustData) (s t : Frame), d.adjustLuma = true →
        (adjustGetFrame d s t).p0 = lutLoop d.lut d.width d.height d.stride s.p0 t.p0) ∧
      (∀ (d : tweakData) (s t : Frame), d.adjustLuma = true →
        (tweakGetFrame d s t).p0 = lutLoop d.lut d.width d.height d.stride s.p0 t.p0) ∧
      (∀ (d : rgbData) (s t : Frame),
        (rgbGetFrame d s t).p0 = lutLoop d.rlut d.width d.height d.stride s.p0 t.p0 ∧
        (rgbGetFrame d s t).p1 = lutLoop d.glut d.width d.height d.stride s.p1 t.p1 ∧
        (rgbGetFrame d s t).p2 = lutLoop d.blut d.width d.height d.stride s.p2 t.p2) := by
  refine ⟨fun hc => ?_, fun hc1 hc2 => ?_, ?_, ?_, ?_⟩
  · exact lutLoop_inRows _ _ _ _ _ _ _ (inRows_of_lt hrow hc)
  · exact lutLoop_not_inRows _ _ _ _ _ _ _ (not_inRows_padding hc1 hc2)
  · intro d s t h
    simp [adjustGetFrame, adjustGetFrame_luma, h]
  · intro d s t h
    simp [tweakGetFrame, tweakGetFrame_luma, h]
  · intro d s t
    exact ⟨rfl, rfl, rfl⟩

/-- C1 at a 2x2 plane of pitch 3 filled with 7, inverted by the table: the
sample at row 1, column 0 becomes 248 and the padding byte of row 1 keeps 9. -/
theorem lutLoop_rows_and_padding_witness :
    lutLoop (fun v => 255 - v) 2 2 3 (fun _ => 7) (fun _ => 9) (1 * 3 + 0) = 248 ∧
      lutLoop (fun v => 255 - v) 2 2 3 (fun _ => 7) (fun _ => 9) (1 * 3 + 2) = 9 :=
  ⟨(lutLoop_rows_and_padding (fun v => 255 - v) (fun _ => 7) (fun _ => 9) 2 2 3 1 0
      (by decide)).1 (by decide),
    (lutLoop_rows_and_padding (fun v => 255 - v) (fun _ => 7) (fun _ => 9) 2 2 3 1 2
      (by decide)).2.1 (by decide) (by decide)⟩

/-! ## Error of one operation -/

/-- A product of magnitude at most `2^30` is computed within `2^-22`. -/
theorem mul_step (x y X Y : ℚ) (hx : |x| ≤ X) (hy : |y| ≤ Y) (hXY : X * Y ≤ 1073741824) :
    ∃ r : ℚ, Dbl.fin x * Dbl.fin y = Dbl.fin r ∧ |r - x * y| ≤ 1 / 4194304 ∧
      |r| ≤ X * Y + 1 / 4194304 := by
  have hb : |x * y| ≤ X * Y := by
    rw [abs_mul]
    exact mul_le_mul hx hy (abs_nonneg y) (le_trans (abs_nonneg x) hx)
  obtain ⟨r, hr, herr⟩ := roundNearest_small (x * y) (le_trans hb hXY)
  refine ⟨r, by rw [Dbl.fin_mul, hr], herr, ?_⟩
  have h := abs_sub_abs_le_abs_sub r (x * y)
  linarith

/-- A sum of magnitude at most `2^30` is computed within `2^-22`. -/
theorem add_step (x y X Y : ℚ) (hx : |x| ≤ X) (hy : |y| ≤ Y) (hXY : X + Y ≤ 1073741824) :
    ∃ r : ℚ, Dbl.fin x + Dbl.fin y = Dbl.fin r ∧ |r - (x + y)| ≤ 1 / 4194304 ∧
      |r| ≤ X + Y + 1 / 4194304 := by
  have hb : |x + y| ≤ X + Y := le_trans (abs_add x y) (add_le_add hx hy)
  obtain ⟨r, hr, herr⟩ := roundNearest_small (x + y) (le_trans hb hXY)
  refine ⟨r, by rw [Dbl.fin_add, hr], herr, ?_⟩
  have h := abs_sub_abs_le_abs_sub r (x + y)
  linarith

/-- A difference of magnitude at most `2^30` is computed within `2^-22`. -/
theorem sub_step (x y X Y : ℚ) (hx : |x| ≤ X) (hy : |y| ≤ Y) (hXY : X + Y ≤ 1073741824) :
    ∃ r : ℚ, Dbl.fin x - Dbl.fin y = Dbl.fin r ∧ |r - (x - y)| ≤ 1 / 4194304 ∧
      |r| ≤ X + Y + 1 / 4194304 := by
  have hb : |x - y| ≤ X + Y := le_trans (abs_sub x y) (add_le_add hx hy)
  obtain ⟨r, hr, herr⟩ := roundNearest_small (x - y) (le_trans hb hXY)
  refine ⟨r, by rw [Dbl.fin_sub, hr], herr, ?_⟩
  have h := abs_sub_abs_le_abs_sub r (x - y)
  linarith

/-- A quotient by a divisor of magnitude at least 1 is computed within
`2^-22`. -/
theorem div_step (x y X : ℚ) (hx : |x| ≤ X) (hy : 1 ≤ |y|) (hX : X ≤ 1073741824) :
    ∃ r : ℚ, Dbl.fin x / Dbl.fin y = Dbl.fin r ∧ |r - x / y| ≤ 1 / 4194304 ∧
      |r| ≤ X + 1 / 4194304 := by
  have hy0 : y ≠ 0 := by
    intro h0
    rw [h0, abs_zero] at hy
    norm_num at hy
  have hb : |x / y| ≤ X := by
    rw [abs_div]
    exact le_trans (div_le_self (abs_nonneg x) hy) hx
  obtain ⟨r, hr, herr⟩ := roundNearest_small (x / y) (le_trans hb hX)
  refine ⟨r, by rw [Dbl.fin_div _ _ hy0, hr], herr, ?_⟩
  have h := abs_sub_abs_le_abs_sub r (x / y)
  linarith

/-- An operation whose exact result is an integer or a half-integer below
`2^52` in magnitude is exact. -/
theorem add_exact (x y : ℚ) (z : Int) (h : x + y = (z : ℚ) / 2) (hz : |z| < 2 ^ 53) :
    Dbl.fin x + Dbl.fin y = Dbl.fin (x + y) := by
  rw [Dbl.fin_add, roundNearest_half_int _ z h hz]

theorem sub_exact (x y : ℚ) (z : Int) (h : x - y = (z : ℚ) / 2) (hz : |z| < 2 ^ 53) :
    Dbl.fin x - Dbl.fin y = Dbl.fin (x - y) := by
  rw [Dbl.fin_sub, roundNearest_half_int _ z h hz]

theorem mul_exact (x y : ℚ) (z : Int) (h : x * y = (z : ℚ) / 2) (hz : |z| < 2 ^ 53) :
    Dbl.fin x * Dbl.fin y = Dbl.fin (x * y) := by
  rw [Dbl.fin_mul, roundNearest_half_int _ z h hz]

/-! ## Saturation of nearby values -/

/-- The saturation of the rotator is the floor clamped to `[0, 255]`. -/
theorem clampR_eq_floor (r : ℚ) : ((clampR r : Nat) : Int) = min 255 (max 0 ⌊r⌋) := by
  have h := sat1_fin_roundSat (r - 1 / 2)
  rw [sub_add_cancel, sat1_fin, roundSat, sub_add_cancel] at h
  exact h

/-- Two rationals less than 1 apart have floors at most 1 apart. -/
theorem floor_near (x y : ℚ) (h : |x - y| < 1) : |⌊x⌋ - ⌊y⌋| ≤ 1 := by
  have h1 := abs_lt.mp h
  have hx1 := Int.floor_le x
  have hx2 := Int.lt_floor_add_one x
  have hy1 := Int.floor_le y
  have hy2 := Int.lt_floor_add_one y
  have ha : ((⌊x⌋ : Int) : ℚ) < ((⌊y⌋ + 2 : Int) : ℚ) := by
    push_cast
    linarith [h1.1, h1.2]
  have hb : ((⌊y⌋ : Int) : ℚ) < ((⌊x⌋ + 2 : Int) : ℚ) := by
    push_cast
    linarith [h1.1, h1.2]
  have ha' : ⌊x⌋ < ⌊y⌋ + 2 := by exact_mod_cast ha
  have hb' : ⌊y⌋ < ⌊x⌋ + 2 := by exact_mod_cast hb
  rw [abs_le]
  constructor <;> omega

/-- The conversion of `adjust.c` moves by at most 1 when its argument moves by
less than 1. -/
theorem sat1_near (r x : ℚ) (h : |r - x| < 1) :
    |((sat1 (Dbl.fin r) : Nat) : Int) - ((clampR x : Nat) : Int)| ≤ 1 := by
  have hf := abs_le.mp (floor_near r x h)
  rw [sat1_fin, clampR_eq_floor, clampR_eq_floor, abs_le]
  constructor <;> omega

/-! ## Chroma rotation -/

/-- Centring an 8-bit sample, `usrc[x] - 128.0`, is exact. -/
theorem centre_sample (a : Nat) (ha : a < 256) :
    Dbl.ofInt a - Dbl.fin 128 = Dbl.fin ((a : ℚ) - 128) ∧ |(a : ℚ) - 128| ≤ 128 := by
  have haq : (a : ℚ) < 256 := by exact_mod_cast ha
  have ha0 : (0 : ℚ) ≤ (a : ℚ) := Nat.cast_nonneg a
  constructor
  · have e : (((a : Int) : ℚ)) - 128 = ((2 * ((a : Int) - 128) : Int) : ℚ) / 2 := by
      push_cast
      ring
    have hz : |2 * ((a : Int) - 128)| < 2 ^ 53 := by
      rw [abs_lt]
      constructor <;> omega
    rw [Dbl.ofInt, sub_exact _ _ _ e hz, Int.cast_natCast]
  · rw [abs_le]
    constructor <;> linarith

/-- A product of a centred sample and an integer coefficient is exact. -/
theorem centred_mul_int (x : Int) (k : Int) (hx : |x| ≤ 128) (hk : |k| ≤ 1048576) :
    Dbl.fin (x : ℚ) * Dbl.fin (k : ℚ) = Dbl.fin ((x * k : Int) : ℚ) ∧ |x * k| ≤ 134217728 := by
  have hb : |x * k| ≤ 134217728 := by
    rw [abs_mul]
    calc |x| * |k| ≤ 128 * 1048576 := mul_le_mul hx hk (abs_nonneg k) (by norm_num)
      _ = 134217728 := by norm_num
  refine ⟨?_, hb⟩
  have e : (x : ℚ) * (k : ℚ) = ((2 * (x * k) : Int) : ℚ) / 2 := by
    push_cast
    ring
  have hz : |2 * (x * k)| < 2 ^ 53 := by
    rw [abs_lt]
    have := abs_le.mp hb
    constructor <;> omega
  rw [mul_exact _ _ _ e hz]
  push_cast
  rfl

/-- The body of the rotation loop on integer coefficients of magnitude at most
`2^20`: every operation is exact. -/
theorem rotate_int (k1 k2 : Int) (a b : Nat) (ha : a < 256) (hb : b < 256)
    (h1 : |k1| ≤ 1048576) (h2 : |k2| ≤ 1048576) :
    rotate (Dbl.fin k1) (Dbl.fin k2) a b =
      (clampR (((a : ℚ) - 128) * k1 + ((b : ℚ) - 128) * k2 + 128.5),
        clampR (((b : ℚ) - 128) * k1 - ((a : ℚ) - 128) * k2 + 128.5)) := by
  obtain ⟨hu, _⟩ := centre_sample a ha
  obtain ⟨hv, _⟩ := centre_sample b hb
  have hua : |(a : Int) - 128| ≤ 128 := by
    rw [abs_le]
    constructor <;> omega
  have hva : |(b : Int) - 128| ≤ 128 := by
    rw [abs_le]
    constructor <;> omega
  have cu : ((a : ℚ) - 128) = (((a : Int) - 128 : Int) : ℚ) := by push_cast; rfl
  have cv : ((b : ℚ) - 128) = (((b : Int) - 128 : Int) : ℚ) := by push_cast; rfl
  obtain ⟨p1, q1⟩ := centred_mul_int ((a : Int) - 128) k1 hua h1
  obtain ⟨p2, q2⟩ := centred_mul_int ((b : Int) - 128) k2 hva h2
  obtain ⟨p3, q3⟩ := centred_mul_int ((b : Int) - 128) k1 hva h1
  obtain ⟨p4, q4⟩ := centred_mul_int ((a : Int) - 128) k2 hua h2
  have q1' := abs_le.mp q1
  have q2' := abs_le.mp q2
  have q3' := abs_le.mp q3
  have q4' := abs_le.mp q4
  -- the sums and the final offsets
  have s1 : Dbl.fin ((((a : Int) - 128) * k1 : Int) : ℚ) + Dbl.fin ((((b : Int) - 128) * k2 : Int) : ℚ) =
      Dbl.fin (((((a : Int) - 128) * k1 + ((b : Int) - 128) * k2 : Int)) : ℚ) := by
    have e : ((((a : Int) - 128) * k1 : Int) : ℚ) + ((((b : Int) - 128) * k2 : Int) : ℚ) =
        ((2 * (((a : Int) - 128) * k1 + ((b : Int) - 128) * k2) : Int) : ℚ) / 2 := by
      push_cast
      ring
    rw [add_exact _ _ _ e (by rw [abs_lt]; constructor <;> omega)]
    push_cast
    rfl
  have s2 : Dbl.fin ((((b : Int) - 128) * k1 : Int) : ℚ) - Dbl.fin ((((a : Int) - 128) * k2 : Int) : ℚ) =
      Dbl.fin (((((b : Int) - 128) * k1 - ((a : Int) - 128) * k2 : Int)) : ℚ) := by
    have e : ((((b : Int) - 128) * k1 : Int) : ℚ) - ((((a : Int) - 128) * k2 : Int) : ℚ) =
        ((2 * (((b : Int) - 128) * k1 - ((a : Int) - 128) * k2) : Int) : ℚ) / 2 := by
      push_cast
      ring
    rw [sub_exact _ _ _ e (by rw [abs_lt]; constructor <;> omega)]
    push_cast
    rfl
  have t1 : Dbl.fin (((((a : Int) - 128) * k1 + ((b : Int) - 128) * k2 : Int)) : ℚ) +
      Dbl.fin (257 / 2) =
      Dbl.fin ((((((a : Int) - 128) * k1 + ((b : Int) - 128) * k2 : Int)) : ℚ) + 257 / 2) := by
    have e : (((((a : Int) - 128) * k1 + ((b : Int) - 128) * k2 : Int)) : ℚ) + 257 / 2 =
        ((2 * (((a : Int) - 128) * k1 + ((b : Int) - 128) * k2) + 257 : Int) : ℚ) / 2 := by
      push_cast
      ring
    exact add_exact _ _ _ e (by rw [abs_lt]; constructor <;> omega)
  have t2 : Dbl.fin (((((b : Int) - 128) * k1 - ((a : Int) - 128) * k2 : Int)) : ℚ) +
      Dbl.fin (257 / 2) =
      Dbl.fin ((((((b : Int) - 128) * k1 - ((a : Int) - 128) * k2 : Int)) : ℚ) + 257 / 2) := by
    have e : (((((b : Int) - 128) * k1 - ((a : Int) - 128) * k2 : Int)) : ℚ) + 257 / 2 =
        ((2 * (((b : Int) - 128) * k1 - ((a : Int) - 128) * k2) + 257 : Int) : ℚ) / 2 := by
      push_cast
      ring
    exact add_exact _ _ _ e (by rw [abs_lt]; constructor <;> omega)
  have e : (128.5 : ℚ) = 257 / 2 := by norm_num
  simp only [rotate, hu, hv, cu, cv, p1, p2, p3, p4, s1, s2, t1, t2, sat1_fin, e]
  push_cast
  rfl

/-- The chroma stage takes the rotation loop unless `(mult1, mult2) = (1, 0)`. -/
theorem adjustGetFrame_chroma_rotating (d : adjustData) (usrc vsrc udst vdst : Buf)
    (h : d.mult1 ≠ Dbl.fin 1 ∨ d.mult2 ≠ Dbl.fin 0) :
    adjustGetFrame_chroma d usrc vsrc udst vdst = rotateLoop d usrc vsrc udst vdst :=
  if_pos h

/-- Doubling the saturation sends `(200, 128)` to `(255, 128)`. -/
theorem rotate_double_saturation : rotate (Dbl.fin 2) (Dbl.fin 0) 200 128 = (255, 128) := by
  have h := rotate_int 2 0 200 128 (by decide) (by decide) (by decide) (by decide)
  rw [Int.cast_zero, Int.cast_ofNat] at h
  rw [h]
  have t1 : Dbl.truncQ (257 / 2) = 128 := by
    rw [Dbl.truncQ_of_nonneg (by norm_num), Int.floor_eq_iff]
    constructor <;> norm_num
  norm_num [clampR, t1]
  rfl

/-- C3, evaluated on a 64x4 frame with 2x2 subsampled chroma (chroma planes of
32x2 samples, luma pitch 64, chroma pitch 32), hue 0 and saturation 2
(`mult1 = 2`, `mult2 = 0`), every chroma pair `(200, 128)` and a zeroed
destination: the rotation loop steps its four chroma pointers by the luma
pitch, so the pair of position `(0, 1)`, which lives at offset
`1 * chromaStride + 0 = 32`, is never written (the destination keeps its 0
instead of `(255, 128)`), and the second row of results lands at offset
`1 * stride + 0 = 64`, past the 64 bytes of the chroma planes. -/
theorem adjustGetFrame_rotation_rows_at_luma_stride :
    (adjustCreate 64 4 1 1 64 32 (Dbl.fin 2) (Dbl.fin 0) none (fun _ => Dbl.nan)
        (fun _ => 0)).chromaWidth = 32 ∧
      (adjustCreate 64 4 1 1 64 32 (Dbl.fin 2) (Dbl.fin 0) none (fun _ => Dbl.nan)
        (fun _ => 0)).chromaHeight = 2 ∧
      (adjustCreate 64 4 1 1 64 32 (Dbl.fin 2) (Dbl.fin 0) none (fun _ => Dbl.nan)
        (fun _ => 0)).chromaStride = 32 ∧
      (adjustCreate 64 4 1 1 64 32 (Dbl.fin 2) (Dbl.fin 0) none (fun _ => Dbl.nan)
        (fun _ => 0)).stride = 64 ∧
      (adjustGetFrame
        (adjustCreate 64 4 1 1 64 32 (Dbl.fin 2) (Dbl.fin 0) none (fun _ => Dbl.nan)
          (fun _ => 0))
        (Frame.mk (fun _ => 16) (fun _ => 200) (fun _ => 128))
        (Frame.mk (fun _ => 0) (fun _ => 0) (fun _ => 0))).p1 (1 * 32 + 0) = 0 ∧
      (adjustGetFrame
        (adjustCreate 64 4 1 1 64 32 (Dbl.fin 2) (Dbl.fin 0) none (fun _ => Dbl.nan)
          (fun _ => 0))
        (Frame.mk (fun _ => 16) (fun _ => 200) (fun _ => 128))
        (Frame.mk (fun _ => 0) (fun _ => 0) (fun _ => 0))).p2 (1 * 32 + 0) = 0 ∧
      (adjustGetFrame
        (adjustCreate 64 4 1 1 64 32 (Dbl.fin 2) (Dbl.fin 0) none (fun _ => Dbl.nan)
          (fun _ => 0))
        (Frame.mk (fun _ => 16) (fun _ => 200) (fun _ => 128))
        (Frame.mk (fun _ => 0) (fun _ => 0) (fun _ => 0))).p1 (1 * 64 + 0) = 255 ∧
      (adjustGetFrame
        (adjustCreate 64 4 1 1 64 32 (Dbl.fin 2) (Dbl.fin 0) none (fun _ => Dbl.nan)
          (fun _ => 0))
        (Frame.mk (fun _ => 16) (fun _ => 200) (fun _ => 128))
        (Frame.mk (fun _ => 0) (fun _ => 0) (fun _ => 0))).p2 (1 * 64 + 0) = 128 := by
  have hbranch :
      (adjustCreate 64 4 1 1 64 32 (Dbl.fin 2) (Dbl.fin 0) none (fun _ => Dbl.nan)
          (fun _ => 0)).mult1 ≠ Dbl.fin 1 ∨
        (adjustCreate 64 4 1 1 64 32 (Dbl.fin 2) (Dbl.fin 0) none (fun _ => Dbl.nan)
          (fun _ => 0)).mult2 ≠ Dbl.fin 0 :=
    Or.inl (fun hc => absurd (Dbl.fin.inj hc) (by norm_num))
  have hout : ¬ inRows 64 32 2 (1 * 32 + 0) := by
    rintro ⟨r, hr, h1, h2⟩
    omega
  have hin : inRows 64 32 2 (1 * 64 + 0) := ⟨1, by decide, by decide, by decide⟩
  have h32 := rotateLoop_not_inRows
    (adjustCreate 64 4 1 1 64 32 (Dbl.fin 2) (Dbl.fin 0) none (fun _ => Dbl.nan) (fun _ => 0))
    (fun _ => 200) (fun _ => 128) (fun _ => 0) (fun _ => 0) (1 * 32 + 0) hout
  have h64 := rotateLoop_inRows
    (adjustCreate 64 4 1 1 64 32 (Dbl.fin 2) (Dbl.fin 0) none (fun _ => Dbl.nan) (fun _ => 0))
    (fun _ => 200) (fun _ => 128) (fun _ => 0) (fun _ => 0) (1 * 64 + 0) hin
  have hrot := adjustGetFrame_chroma_rotating
    (adjustCreate 64 4 1 1 64 32 (Dbl.fin 2) (Dbl.fin 0) none (fun _ => Dbl.nan) (fun _ => 0))
    (fun _ => 200) (fun _ => 128) (fun _ => 0) (fun _ => 0) hbranch
  refine ⟨rfl, rfl, rfl, rfl, ?_, ?_, ?_, ?_⟩
  · simp only [adjustGetFrame, hrot]
    exact h32.1
  · simp only [adjustGetFrame, hrot]
    exact h32.2
  · simp only [adjustGetFrame, hrot]
    exact h64.1.trans (congrArg Prod.fst rotate_double_saturation)
  · simp only [adjustGetFrame, hrot]
    exact h64.2.trans (congrArg Prod.snd rotate_double_saturation)

/-- C4: when `m1 = 1.0` and `m2 = 0.0` the chroma stage of `adjustGetFrame`
copies the source: at every position `(x, y)` of the `chromaWidth` x
`chromaHeight` region, the destination pair equals the source pair, whatever
the two samples are. -/
theorem adjustGetFrame_identity_copies (d : adjustData) (src dst : Frame) (x y : Nat)
    (hm1 : d.mult1 = Dbl.fin 1) (hm2 : d.mult2 = Dbl.fin 0)
    (hx : x < d.chromaWidth) (hy : y < d.chromaHeight) :
    (adjustGetFrame d src dst).p1 (y * d.chromaStride + x) = src.p1 (y * d.chromaStride + x) ∧
      (adjustGetFrame d src dst).p2 (y * d.chromaStride + x) =
        src.p2 (y * d.chromaStride + x) := by
  have hbranch : ¬ (d.mult1 ≠ Dbl.fin 1 ∨ d.mult2 ≠ Dbl.fin 0) := by
    rw [hm1, hm2]
    simp
  simp only [adjustGetFrame, adjustGetFrame_chroma, if_neg hbranch]
  exact ⟨vs_bitblt_inRows _ _ _ _ _ _ (inRows_of_lt hy hx),
    vs_bitblt_inRows _ _ _ _ _ _ (inRows_of_lt hy hx)⟩

/-- C4 on the 32x2 chroma planes of a 64x4 frame (chroma pitch 32, luma pitch
64), at position `(5, 1)`, with a source that holds a different sample at
every offset. -/
theorem adjustGetFrame_identity_copies_witness :
    (adjustGetFrame
        (adjustData.mk false 2 32 32 4 64 64 (Dbl.fin 1) (Dbl.fin 0) (fun v => v))
        (Frame.mk (fun _ => 16) (fun o => o % 256) (fun o => (o * 7) % 256))
        (Frame.mk (fun _ => 0) (fun _ => 0) (fun _ => 0))).p1 (1 * 32 + 5) = 37 ∧
      (adjustGetFrame
        (adjustData.mk false 2 32 32 4 64 64 (Dbl.fin 1) (Dbl.fin 0) (fun v => v))
        (Frame.mk (fun _ => 16) (fun o => o % 256) (fun o => (o * 7) % 256))
        (Frame.mk (fun _ => 0) (fun _ => 0) (fun _ => 0))).p2 (1 * 32 + 5) = 3 :=
  adjustGetFrame_identity_copies
    (adjustData.mk false 2 32 32 4 64 64 (Dbl.fin 1) (Dbl.fin 0) (fun v => v))
    (Frame.mk (fun _ => 16) (fun o => o % 256) (fun o => (o * 7) % 256))
    (Frame.mk (fun _ => 0) (fun _ => 0) (fun _ => 0)) 5 1 rfl rfl (by decide) (by decide)

/-! ## Single-point luma tables and channel gains -/

theorem readLuma_singleton (v : Dbl) (beyond : Nat → Dbl) : readLuma [v] beyond 0 = v := rfl

/-- The single-point table of `adjustCreate`, entry by entry. -/
theorem adjustCreate_lut_single (v : Dbl) (beyond : Nat → Dbl) (lut0 : Buf) (i : Nat)
    (hi : i < 256) :
    adjustCreate_lut [v] beyond lut0 i =
      sat1 ((Dbl.ofInt i * (Dbl.fin 1 + v / Dbl.fin 100)) + Dbl.fin (1 / 2)) := by
  have hn : ((([v] : List Dbl).length : Nat) : Int) = 1 := rfl
  simp only [adjustCreate_lut, hn, if_true, readLuma_singleton]
  rw [forLoop_store_index
    (fun i => sat1 ((Dbl.ofInt i * (Dbl.fin 1 + v / Dbl.fin 100)) + Dbl.fin (1 / 2))),
    if_pos hi]

/-- The single-point table of `tweakCreate`, entry by entry. -/
theorem tweakCreate_lut_single (v : Dbl) (beyond : Nat → Dbl) (lut0 : Buf) (i : Nat)
    (hi : i < 256) :
    tweakCreate_lut [v] beyond lut0 i =
      satHi ((Dbl.ofInt i * (Dbl.fin 1 + v / Dbl.fin 100)) + Dbl.fin (1 / 2)) := by
  have hn : ((([v] : List Dbl).length : Nat) : Int) = 1 := rfl
  simp only [tweakCreate_lut, hn, if_true, readLuma_singleton]
  rw [forLoop_store_index
    (fun i => satHi ((Dbl.ofInt i * (Dbl.fin 1 + v / Dbl.fin 100)) + Dbl.fin (1 / 2))),
    if_pos hi]

/-- The table loop of `rgbCreate`, channel by channel. -/
theorem rgbCreate_luts_eq (red green blue : Dbl) (luts0 : RgbLuts) :
    rgbCreate_luts (some red) (some green) (some blue) luts0 =
      RgbLuts.mk
        (forLoop 256 (fun i l => store l i (satHi ((Dbl.ofInt i * red) + Dbl.fin (1 / 2))))
          luts0.rlut)
        (forLoop 256 (fun i l => store l i (satHi ((Dbl.ofInt i * green) + Dbl.fin (1 / 2))))
          luts0.glut)
        (forLoop 256 (fun i l => store l i (satHi ((Dbl.ofInt i * blue) + Dbl.fin (1 / 2))))
          luts0.blut) := by
  simp only [rgbCreate_luts, Option.getD_some]
  induction (256 : Nat) with
  | zero => rfl
  | succ n ih => simp only [forLoop_succ, ih]

/-- The three tables of `rgbCreate`, entry by entry. -/
theorem rgbCreate_luts_at (r g b : Dbl) (luts0 : RgbLuts) (i : Nat) (hi : i < 256) :
    (rgbCreate_luts (some r) (some g) (some b) luts0).rlut i =
        satHi ((Dbl.ofInt i * r) + Dbl.fin (1 / 2)) ∧
      (rgbCreate_luts (some r) (some g) (some b) luts0).glut i =
        satHi ((Dbl.ofInt i * g) + Dbl.fin (1 / 2)) ∧
      (rgbCreate_luts (some r) (some g) (some b) luts0).blut i =
        satHi ((Dbl.ofInt i * b) + Dbl.fin (1 / 2)) := by
  rw [rgbCreate_luts_eq]
  dsimp only
  rw [forLoop_store_index (fun i => satHi ((Dbl.ofInt i * r) + Dbl.fin (1 / 2))),
    forLoop_store_index (fun i => satHi ((Dbl.ofInt i * g) + Dbl.fin (1 / 2))),
    forLoop_store_index (fun i => satHi ((Dbl.ofInt i * b) + Dbl.fin (1 / 2)))]
  simp only [if_pos hi, and_self]

/-- Absent multipliers of `rgbCreate` are `1.0`. -/
theorem rgbCreate_luts_default (red green blue : Option Dbl) (luts0 : RgbLuts) :
    rgbCreate_luts red green blue luts0 =
      rgbCreate_luts (some (red.getD (Dbl.fin 1))) (some (green.getD (Dbl.fin 1)))
        (some (blue.getD (Dbl.fin 1))) luts0 := rfl

/-- The table of the record built by `adjustCreate`. -/
theorem adjustCreate_lut_field (width height subSamplingW subSamplingH stride0 stride1 : Nat)
    (mult1 mult2 : Dbl) (luma : Option (List Dbl)) (beyond : Nat → Dbl) (lut0 : Buf) :
    (adjustCreate width height subSamplingW subSamplingH stride0 stride1 mult1 mult2 luma
      beyond lut0).lut = adjustCreate_lut (luma.getD []) beyond lut0 := rfl

/-- Rounding a sample scaled by one gives the sample back. -/
theorem floor_sample_add_half (i : Nat) : ⌊(i : ℚ) + 1 / 2⌋ = (i : Int) := by
  rw [Int.floor_eq_iff]
  constructor
  · push_cast
    linarith
  · push_cast
    linarith

/-- On finite non-negative values the conversion of `tweak.c` is the floor
saturated at 255. -/
theorem satHi_fin_floor (r : ℚ) (hr : 0 ≤ r) :
    ((satHi (Dbl.fin r) : Nat) : Int) = min 255 ⌊r⌋ := by
  unfold satHi
  simp only [Dbl.lt, decide_eq_true_eq]
  by_cases h255 : r < 255
  · have hf255 : ⌊r⌋ < 255 := Int.floor_lt.mpr (by exact_mod_cast h255)
    simp only [h255, if_true]
    rw [Dbl.toU8_fin hr (by linarith)]
    omega
  · have hf255 : (255 : Int) ≤ ⌊r⌋ := Int.le_floor.mpr (by exact_mod_cast not_lt.mp h255)
    simp only [h255, if_false]
    omega

/-- At unit gain every operation is exact: the value is `i + 0.5`. -/
theorem unit_gain_value (i : Nat) (hi : i < 256) :
    (Dbl.ofInt i * Dbl.fin 1) + Dbl.fin (1 / 2) = Dbl.fin ((i : ℚ) + 1 / 2) := by
  have h1 : Dbl.fin ((i : Int) : ℚ) * Dbl.fin 1 = Dbl.fin (i : ℚ) := by
    have e : (((i : Int) : ℚ)) * 1 = ((2 * (i : Int) : Int) : ℚ) / 2 := by
      push_cast
      ring
    rw [mul_exact _ _ _ e (by rw [abs_lt]; constructor <;> omega), mul_one, Int.cast_natCast]
  have h2 : Dbl.fin (i : ℚ) + Dbl.fin (1 / 2) = Dbl.fin ((i : ℚ) + 1 / 2) := by
    have e : (i : ℚ) + 1 / 2 = ((2 * (i : Int) + 1 : Int) : ℚ) / 2 := by
      push_cast
      ring
    exact add_exact _ _ _ e (by rw [abs_lt]; constructor <;> omega)
  rw [Dbl.ofInt, h1, h2]

/-- The control point 0 gives the gain 1 exactly. -/
theorem zero_control_point_gain : Dbl.fin 1 + Dbl.fin 0 / Dbl.fin 100 = Dbl.fin 1 := by
  have h1 : Dbl.fin 0 / Dbl.fin 100 = Dbl.fin 0 := by
    rw [Dbl.fin_div_hundred, zero_div, roundNearest_zero]
  rw [h1, add_exact _ _ 2 (by norm_num) (by norm_num), add_zero]

/-- C8: `rgbCreate` with multiplier 1.0 (given or absent) and the single-point
luma tables of `tweakCreate` and `adjustCreate` for the control-point list
`[0.0]` are the identity on `0..255`. -/
theorem identity_tables (i : Nat) (hi : i < 256) (luts0 : RgbLuts) (beyond : Nat → Dbl)
    (lut0 : Buf) (width height subSamplingW subSamplingH stride0 stride1 : Nat)
    (mult1 mult2 : Dbl) :
    (rgbCreate_luts (some (Dbl.fin 1)) (some (Dbl.fin 1)) (some (Dbl.fin 1)) luts0).rlut i = i ∧
      (rgbCreate_luts (some (Dbl.fin 1)) (some (Dbl.fin 1)) (some (Dbl.fin 1)) luts0).glut i = i ∧
      (rgbCreate_luts (some (Dbl.fin 1)) (some (Dbl.fin 1)) (some (Dbl.fin 1)) luts0).blut i = i ∧
      (rgbCreate_luts none none none luts0).rlut i = i ∧
      tweakCreate_lut [Dbl.fin 0] beyond lut0 i = i ∧
      (adjustCreate width height subSamplingW subSamplingH stride0 stride1 mult1 mult2
        (some [Dbl.fin 0]) beyond lut0).lut i = i := by
  have hhi : satHi (Dbl.fin ((i : ℚ) + 1 / 2)) = i := by
    have h := satHi_fin_round (i : ℚ) (Nat.cast_nonneg i)
    rw [floor_sample_add_half] at h
    omega
  have hlo : sat1 (Dbl.fin ((i : ℚ) + 1 / 2)) = i := by
    have h := sat1_fin_roundSat (i : ℚ)
    unfold roundSat at h
    rw [floor_sample_add_half] at h
    omega
  obtain ⟨h1, h2, h3⟩ := rgbCreate_luts_at (Dbl.fin 1) (Dbl.fin 1) (Dbl.fin 1) luts0 i hi
  rw [unit_gain_value i hi] at h1 h2 h3
  refine ⟨h1.trans hhi, h2.trans hhi, h3.trans hhi, ?_, ?_, ?_⟩
  · rw [rgbCreate_luts_default]
    simp only [Option.getD_none]
    exact h1.trans hhi
  · rw [tweakCreate_lut_single _ beyond lut0 i hi, zero_control_point_gain,
      unit_gain_value i hi]
    exact hhi
  · rw [adjustCreate_lut_field, Option.getD_some, adjustCreate_lut_single _ beyond lut0 i hi,
      zero_control_point_gain, unit_gain_value i hi]
    exact hlo

/-- C8 at the two ends of the range, `i = 0` and `i = 255`, for the table of
`adjustCreate`. -/
theorem identity_tables_witness :
    (adjustCreate 64 4 1 1 64 32 (Dbl.fin 1) (Dbl.fin 0) (some [Dbl.fin 0]) (fun _ => Dbl.nan)
        (fun _ => 77)).lut 0 = 0 ∧
      (adjustCreate 64 4 1 1 64 32 (Dbl.fin 1) (Dbl.fin 0) (some [Dbl.fin 0]) (fun _ => Dbl.nan)
        (fun _ => 77)).lut 255 = 255 :=
  ⟨(identity_tables 0 (by decide) (RgbLuts.mk (fun _ => 0) (fun _ => 0) (fun _ => 0))
      (fun _ => Dbl.nan) (fun _ => 77) 64 4 1 1 64 32 (Dbl.fin 1) (Dbl.fin 0)).2.2.2.2.2,
    (identity_tables 255 (by decide) (RgbLuts.mk (fun _ => 0) (fun _ => 0) (fun _ => 0))
      (fun _ => Dbl.nan) (fun _ => 77) 64 4 1 1 64 32 (Dbl.fin 1) (Dbl.fin 0)).2.2.2.2.2⟩

/-! ## Multi-point luma tables -/

/-- A run of stores at the consecutive `int` indices `lo..hi`, `lo ≥ 0`. -/
theorem forFromTo_store (lo hi : Int) (hlo : 0 ≤ lo) (g : Int → Nat) (l0 : Buf) (k : Nat) :
    forFromTo lo hi (fun j l => store l j.toNat (g j)) l0 k =
      if lo ≤ (k : Int) ∧ (k : Int) ≤ hi then g k else l0 k := by
  have e : (fun (x : Nat) (acc : Buf) => store acc (lo + (x : Int)).toNat (g (lo + (x : Int)))) =
      (fun (x : Nat) (acc : Buf) => store acc (lo.toNat + x) (g (lo + (x : Int)))) := by
    funext x acc
    have : (lo + (x : Int)).toNat = lo.toNat + x := by omega
    rw [this]
  unfold forFromTo
  rw [e, forLoop_store (fun x => g (lo + (x : Int))) lo.toNat (hi + 1 - lo).toNat l0 k]
  by_cases hk : lo ≤ (k : Int) ∧ (k : Int) ≤ hi
  · have h1 : lo.toNat ≤ k ∧ k < lo.toNat + (hi + 1 - lo).toNat := by omega
    have h2 : lo + ((k - lo.toNat : Nat) : Int) = (k : Int) := by omega
    rw [if_pos hk, if_pos h1, h2]
  · have h1 : ¬ (lo.toNat ≤ k ∧ k < lo.toNat + (hi + 1 - lo).toNat) := by omega
    rw [if_neg hk, if_neg h1]

/-- Before the index `numLuma - 1` a segment ends one short of the next start. -/
theorem segEnd_of_lt (numLuma incr : Int) (i : Nat) (hi : (i : Int) < numLuma - 1) :
    segEnd numLuma incr i = segStart incr (i + 1) - 1 := by
  have hne : ¬ ((i : Int) = numLuma - 1) := by omega
  simp only [segEnd, segStart, if_neg hne]
  push_cast
  ring

theorem segStart_mono (incr : Int) (hincr : 0 ≤ incr) {i n : Nat} (h : i ≤ n) :
    segStart incr i ≤ segStart incr n := by
  unfold segStart
  exact mul_le_mul_of_nonneg_right (by exact_mod_cast h) hincr

theorem segStart_nonneg (incr : Int) (hincr : 0 ≤ incr) (i : Nat) : 0 ≤ segStart incr i := by
  unfold segStart
  exact mul_nonneg (by exact_mod_cast Nat.zero_le i) hincr

/-- The table after the first `n` segments of a loop that stops before index
`numLuma - 1`: every sample of an iterated segment holds the value of that
segment, and no index from the start of segment `n` on has been written. -/
theorem segments_state (numLuma incr : Int) (hincr : 0 ≤ incr) (val : Nat → Int → Nat)
    (lut0 : Buf) (n : Nat) (hn : (n : Int) ≤ numLuma - 1) :
    (∀ (i k : Nat), i < n → segStart incr i ≤ (k : Int) → (k : Int) ≤ segEnd numLuma incr i →
        forLoop n
          (fun i lut =>
            forFromTo (segStart incr i) (segEnd numLuma incr i)
              (fun j l => store l j.toNat (val i j)) lut) lut0 k = val i k) ∧
      (∀ k : Nat, segStart incr n ≤ (k : Int) →
        forLoop n
          (fun i lut =>
            forFromTo (segStart incr i) (segEnd numLuma incr i)
              (fun j l => store l j.toNat (val i j)) lut) lut0 k = lut0 k) := by
  induction n with
  | zero =>
      refine ⟨fun i k hi => absurd hi (Nat.not_lt_zero i), fun k _ => rfl⟩
  | succ n ih =>
      have hn1 : (n : Int) < numLuma - 1 := by push_cast at hn; omega
      obtain ⟨ih1, ih2⟩ := ih (by omega)
      have hend := segEnd_of_lt numLuma incr n hn1
      have hs0 := segStart_nonneg incr hincr n
      have hle : segStart incr n ≤ segStart incr (n + 1) := segStart_mono incr hincr (Nat.le_succ n)
      constructor
      · intro i k hi h1 h2
        rw [forLoop_succ, forFromTo_store _ _ hs0]
        by_cases hin : i = n
        · subst hin
          rw [if_pos ⟨h1, h2⟩]
        · have hi1 : i < n := by omega
          have hend_i := segEnd_of_lt numLuma incr i (by omega)
          have hle_i : segStart incr (i + 1) ≤ segStart incr n :=
            segStart_mono incr hincr (by omega)
          have hno : ¬ (segStart incr n ≤ (k : Int) ∧ (k : Int) ≤ segEnd numLuma incr n) := by
            omega
          rw [if_neg hno]
          exact ih1 i k hi1 h1 h2
      · intro k hk
        rw [forLoop_succ, forFromTo_store _ _ hs0]
        have hno : ¬ (segStart incr n ≤ (k : Int) ∧ (k : Int) ≤ segEnd numLuma incr n) := by
          omega
        rw [if_neg hno]
        exact ih2 k (by omega)

/-- The multi-point branch of `adjustCreate`. -/
theorem adjustCreate_lut_multi (lumaAdjust : List Dbl) (beyond : Nat → Dbl) (lut0 : Buf)
    (h : 2 ≤ lumaAdjust.length) :
    adjustCreate_lut lumaAdjust beyond lut0 =
      forLoop ((lumaAdjust.length : Int) - 1).toNat
        (fun i lut =>
          forFromTo (segStart (Int.tdiv 256 ((lumaAdjust.length : Int) - 1)) i)
            (segEnd lumaAdjust.length (Int.tdiv 256 ((lumaAdjust.length : Int) - 1)) i)
            (fun j l => store l j.toNat
              (sat1 (segVal lumaAdjust.length (Int.tdiv 256 ((lumaAdjust.length : Int) - 1))
                lumaAdjust beyond i j))) lut)
        lut0 := by
  have hne : ¬ ((lumaAdjust.length : Int) = 1) := by omega
  simp only [adjustCreate_lut, if_neg hne]

/-- The multi-point branch of `tweakCreate`. -/
theorem tweakCreate_lut_multi (lumaAdjust : List Dbl) (beyond : Nat → Dbl) (lut0 : Buf)
    (h : 2 ≤ lumaAdjust.length) :
    tweakCreate_lut lumaAdjust beyond lut0 =
      forLoop (lumaAdjust.length : Int).toNat
        (fun i lut =>
          forFromTo (segStart (Int.tdiv 256 ((lumaAdjust.length : Int) - 1)) i)
            (segEnd lumaAdjust.length (Int.tdiv 256 ((lumaAdjust.length : Int) - 1)) i)
            (fun j l => store l j.toNat
              (satHi (segVal lumaAdjust.length (Int.tdiv 256 ((lumaAdjust.length : Int) - 1))
                lumaAdjust beyond i j))) lut)
        lut0 := by
  have hne : ¬ ((lumaAdjust.length : Int) = 1) := by omega
  simp only [tweakCreate_lut, if_neg hne]

theorem incr_nonneg (n : Nat) (h : 2 ≤ n) : 0 ≤ Int.tdiv 256 ((n : Int) - 1) :=
  Int.tdiv_nonneg (by decide) (by omega)

/-- C5, evaluated on four control points (`incr = 256 / 3 = 85`): the loop of
`adjustCreate` stops at segment 2, whose end is `3 * 85 - 1 = 254` because the
test `i == numLuma - 1` is never true inside `i < numLuma - 1`; whatever the
four control points are, entry 255 of the table is not written and keeps the
content it had before the builder ran. -/
theorem adjustCreate_four_points_skip_255 :
    segStart (Int.tdiv 256 (4 - 1)) 2 = 170 ∧
      segEnd 4 (Int.tdiv 256 (4 - 1)) 2 = 254 ∧
      ∀ (c0 c1 c2 c3 : Dbl) (beyond : Nat → Dbl) (lut0 : Buf),
        adjustCreate_lut [c0, c1, c2, c3] beyond lut0 255 = lut0 255 := by
  refine ⟨by decide, by decide, ?_⟩
  intro c0 c1 c2 c3 beyond lut0
  have h255 : segStart (Int.tdiv 256 (((4 : Nat) : Int) - 1)) 3 ≤ ((255 : Nat) : Int) := by
    decide
  rw [adjustCreate_lut_multi _ _ _ (by simp)]
  exact (segments_state (([c0, c1, c2, c3] : List Dbl).length : Int)
    (Int.tdiv 256 ((([c0, c1, c2, c3] : List Dbl).length : Int) - 1))
    (incr_nonneg 4 (by decide)) _ lut0 3 (by simp)).2 255 h255

/-- A read inside an array of finite control points. -/
theorem readLuma_map_fin (l : List ℚ) (beyond : Nat → Dbl) (k : Nat) (hk : k < l.length) :
    readLuma (l.map Dbl.fin) beyond k = Dbl.fin l[k] := by
  simp [readLuma, List.get?_eq_getElem?, List.getElem?_map, List.getElem?_eq_getElem hk]

/-- The end of an iterated segment of `adjustCreate` is a sample index. -/
theorem segEnd_le (n i : Nat) (hi : i + 1 < n) :
    segEnd n (Int.tdiv 256 ((n : Int) - 1)) i ≤ 255 := by
  have hdiv : Int.tdiv 256 ((n : Int) - 1) = 256 / ((n : Int) - 1) :=
    Int.tdiv_eq_ediv (by decide) (by omega)
  have hn0 : ((n : Int) - 1) ≠ 0 := by omega
  have hmul := Int.ediv_mul_le 256 hn0
  have hinc := incr_nonneg n (by omega)
  rw [hdiv] at hinc ⊢
  rw [segEnd_of_lt _ _ _ (by omega)]
  have hle : segStart (256 / ((n : Int) - 1)) (i + 1) ≤ 256 / ((n : Int) - 1) * ((n : Int) - 1) := by
    unfold segStart
    rw [mul_comm]
    exact mul_le_mul_of_nonneg_left (by push_cast; omega) hinc
  omega

/-- The value of a segment at its end, for control points of magnitude at most
`10^6` and an end in `1..255` at least one above the start: the doubles `a`
and `b` are rounded, and the value is within `2^-12` of
`end * (1 + p/100) + 1/2` for the control point `p` that ends the segment. -/
theorem segVal_end_near (numLuma incr : Int) (l : List ℚ) (beyond : Nat → Dbl) (i : Nat)
    (hi : i + 1 < l.length) (hpi : |l[i]| ≤ 1000000) (hpj : |l[i + 1]| ≤ 1000000)
    (hseg : segStart incr i < segEnd numLuma incr i) (hs0 : 0 ≤ segStart incr i)
    (he : segEnd numLuma incr i ≤ 255) :
    ∃ r : ℚ, segVal numLuma incr (l.map Dbl.fin) beyond i (segEnd numLuma incr i) = Dbl.fin r ∧
      |r - (((segEnd numLuma incr i : Int) : ℚ) * (1 + l[i + 1] / 100) + 1 / 2)| ≤ 1 / 4096 := by
  have hhalf : |(1 / 2 : ℚ)| ≤ 1 := by
    rw [abs_le]
    constructor <;> norm_num
  have hone : |(1 : ℚ)| ≤ 1 := by norm_num
  have hhund : (1 : ℚ) ≤ |(100 : ℚ)| := by norm_num
  -- the end and the width of the segment as rationals
  have hE : |((segEnd numLuma incr i : Int) : ℚ)| ≤ 255 := by
    have h1 : ((segEnd numLuma incr i : Int) : ℚ) ≤ 255 := by exact_mod_cast he
    have h0 : (0 : ℚ) ≤ ((segEnd numLuma incr i : Int) : ℚ) := by
      have : 0 ≤ segEnd numLuma incr i := by omega
      exact_mod_cast this
    rw [abs_le]
    constructor <;> linarith
  have hD : (1 : ℚ) ≤ |((segEnd numLuma incr i - segStart incr i : Int) : ℚ)| := by
    have h1 : (1 : Int) ≤ segEnd numLuma incr i - segStart incr i := by omega
    have h2 : ((1 : Int) : ℚ) ≤ ((segEnd numLuma incr i - segStart incr i : Int) : ℚ) :=
      Int.cast_le.mpr h1
    rw [Int.cast_one] at h2
    exact le_trans h2 (le_abs_self _)
  obtain ⟨q0, e0, d0, b0⟩ := div_step l[i] 100 1000000 hpi hhund (by norm_num)
  obtain ⟨mn, e1, d1, b1⟩ := add_step 1 q0 _ _ hone b0 (by norm_num)
  obtain ⟨q1, e2, d2, b2⟩ := div_step l[i + 1] 100 1000000 hpj hhund (by norm_num)
  obtain ⟨mx, e3, d3, b3⟩ := add_step 1 q1 _ _ hone b2 (by norm_num)
  obtain ⟨dm, e4, d4, b4⟩ := sub_step mx mn _ _ b3 b1 (by norm_num)
  obtain ⟨a, e5, d5, b5⟩ := div_step dm _ _ b4 hD (by norm_num)
  obtain ⟨ae, e6, d6, b6⟩ := mul_step a _ _ 255 b5 hE (by norm_num)
  obtain ⟨b, e7, d7, b7⟩ := sub_step mx ae _ _ b3 b6 (by norm_num)
  obtain ⟨g, e8, d8, _⟩ := add_step ae b _ _ b6 b7 (by norm_num)
  -- the interpolated gain at the end is the end gain, up to four roundings
  have hgain : |g - (1 + l[i + 1] / 100)| ≤ 1 / 1048576 := by
    rw [abs_le] at d2 d3 d7 d8 ⊢
    constructor <;> linarith [d2.1, d2.2, d3.1, d3.2, d7.1, d7.2, d8.1, d8.2]
  have hg : |g| ≤ 1000002 := by
    have hG : |1 + l[i + 1] / 100| ≤ 1000001 := by
      rw [abs_le] at hpj ⊢
      constructor <;> linarith [hpj.1, hpj.2]
    have h := abs_sub_abs_le_abs_sub g (1 + l[i + 1] / 100)
    linarith
  obtain ⟨ge, e9, d9, b9⟩ := mul_step g _ _ 255 hg hE (by norm_num)
  obtain ⟨val, e10, d10, _⟩ := add_step ge (1 / 2) _ _ b9 hhalf (by norm_num)
  refine ⟨val, ?_, ?_⟩
  · simp only [segVal, readLuma_map_fin l beyond i (by omega),
      readLuma_map_fin l beyond (i + 1) hi, Dbl.ofInt, e0, e1, e2, e3, e4, e5, e6, e7, e8, e9,
      e10]
  · have hprod : |(1 + l[i + 1] / 100 - g) * ((segEnd numLuma incr i : Int) : ℚ)| ≤
        1 / 1048576 * 255 := by
      rw [abs_mul, abs_sub_comm]
      exact mul_le_mul hgain hE (abs_nonneg _) (by norm_num)
    rw [abs_le] at d9 d10 hprod ⊢
    constructor <;> linarith [d9.1, d9.2, d10.1, d10.2, hprod.1, hprod.2]

/-- The chain of doubles behind entry 255 of the table for the control points
`[-1e20, 0]`: the start gain is `-1e18`, the slope `a` and the product
`a * 255` absorb the end gain 1 in their last place, `b = 1 - a*255` rounds to
`-1e18`, and the interpolated gain `a*255 + b` is 0 instead of 1. -/
theorem segVal_cancellation (beyond : Nat → Dbl) :
    segVal 2 256 [Dbl.fin (-100000000000000000000), Dbl.fin 0] beyond 0 255 =
      Dbl.fin (1 / 2) := by
  have hs : segStart 256 0 = 0 := by decide
  have he : segEnd 2 256 0 = 255 := by decide
  have r0 : readLuma [Dbl.fin (-100000000000000000000), Dbl.fin 0] beyond 0 =
      Dbl.fin (-100000000000000000000) := rfl
  have r1 : readLuma [Dbl.fin (-100000000000000000000), Dbl.fin 0] beyond (0 + 1) =
      Dbl.fin 0 := rfl
  have hd : Dbl.ofInt (255 - 0) = Dbl.fin 255 := by simp [Dbl.ofInt]
  have hj : Dbl.ofInt 255 = Dbl.fin 255 := by simp [Dbl.ofInt]
  have s1 : Dbl.fin (-100000000000000000000) / Dbl.fin 100 =
      Dbl.fin (-1000000000000000000) := by
    rw [Dbl.fin_div_hundred,
      roundNearest_of_near _ 59 (-7812500000000000) (by norm_num) (by norm_num)
        (by rw [abs_of_neg (by norm_num)]; norm_num)
        (by rw [abs_of_neg (by norm_num)]; norm_num)
        (by rw [abs_lt]; constructor <;> norm_num)]
    norm_num
  have s2 : Dbl.fin 1 + Dbl.fin (-1000000000000000000) = Dbl.fin (-1000000000000000000) := by
    rw [Dbl.fin_add,
      roundNearest_of_near _ 59 (-7812500000000000) (by norm_num) (by norm_num)
        (by rw [abs_of_neg (by norm_num)]; norm_num)
        (by rw [abs_of_neg (by norm_num)]; norm_num)
        (by rw [abs_lt]; constructor <;> norm_num)]
    norm_num
  have s3 : Dbl.fin 0 / Dbl.fin 100 = Dbl.fin 0 := by
    rw [Dbl.fin_div_hundred, zero_div, roundNearest_zero]
  have s4 : Dbl.fin 1 + Dbl.fin 0 = Dbl.fin 1 := by
    rw [add_exact _ _ 2 (by norm_num) (by norm_num), add_zero]
  have s5 : Dbl.fin 1 - Dbl.fin (-1000000000000000000) = Dbl.fin 1000000000000000000 := by
    rw [Dbl.fin_sub,
      roundNearest_of_near _ 59 7812500000000000 (by norm_num) (by norm_num)
        (by rw [abs_of_pos (by norm_num)]; norm_num)
        (by rw [abs_of_pos (by norm_num)]; norm_num)
        (by rw [abs_lt]; constructor <;> norm_num)]
    norm_num
  have s6 : Dbl.fin 1000000000000000000 / Dbl.fin 255 = Dbl.fin (7843137254901961 / 2) := by
    rw [Dbl.fin_div _ _ (by norm_num),
      roundNearest_of_near _ 51 7843137254901961 (by norm_num) (by norm_num)
        (by rw [abs_of_pos (by norm_num)]; norm_num)
        (by rw [abs_of_pos (by norm_num)]; norm_num)
        (by rw [abs_lt]; constructor <;> norm_num)]
    norm_num
  have s7 : Dbl.fin (7843137254901961 / 2) * Dbl.fin 255 = Dbl.fin 1000000000000000000 := by
    rw [Dbl.fin_mul,
      roundNearest_of_near _ 59 7812500000000000 (by norm_num) (by norm_num)
        (by rw [abs_of_pos (by norm_num)]; norm_num)
        (by rw [abs_of_pos (by norm_num)]; norm_num)
        (by rw [abs_lt]; constructor <;> norm_num)]
    norm_num
  have s8 : Dbl.fin 1 - Dbl.fin 1000000000000000000 = Dbl.fin (-1000000000000000000) := by
    rw [Dbl.fin_sub,
      roundNearest_of_near _ 59 (-7812500000000000) (by norm_num) (by norm_num)
        (by rw [abs_of_neg (by norm_num)]; norm_num)
        (by rw [abs_of_neg (by norm_num)]; norm_num)
        (by rw [abs_lt]; constructor <;> norm_num)]
    norm_num
  have s9 : Dbl.fin 1000000000000000000 + Dbl.fin (-1000000000000000000) = Dbl.fin 0 := by
    rw [Dbl.fin_add, add_neg_cancel, roundNearest_zero]
  have s10 : Dbl.fin 0 * Dbl.fin 255 = Dbl.fin 0 := by
    rw [Dbl.fin_mul, zero_mul, roundNearest_zero]
  have s11 : Dbl.fin 0 + Dbl.fin (1 / 2) = Dbl.fin (1 / 2) := by
    rw [add_exact _ _ 1 (by norm_num) (by norm_num), zero_add]
  simp only [segVal, hs, he, r0, r1, hd, hj, s1, s2, s3, s4, s5, s6, s7, s8, s9, s10, s11]

/-- C9 refuted as stated, on the control points `[-1e20, 0]` (one segment,
`[0, 255]`, end gain 1): the code stores 0 at index 255, because the
interpolated gain `a*255 + b` cancels to 0 in double arithmetic, while
`round(255 * gain_end)` saturated is 255. -/
theorem segment_end_continuity_fails_at_huge_control_point :
    segStart (Int.tdiv 256 (2 - 1)) 0 < segEnd 2 (Int.tdiv 256 (2 - 1)) 0 ∧
      segEnd 2 (Int.tdiv 256 (2 - 1)) 0 = 255 ∧
      adjustCreate_lut [Dbl.fin (-100000000000000000000), Dbl.fin 0] (fun _ => Dbl.nan)
        (fun _ => 7) 255 = 0 ∧
      min 255 (max 0 ⌊((255 : Int) : ℚ) * (1 + 0 / 100) + 1 / 2⌋) = 255 ∧
      ¬ (|((adjustCreate_lut [Dbl.fin (-100000000000000000000), Dbl.fin 0] (fun _ => Dbl.nan)
          (fun _ => 7) (255 : Int).toNat : Nat) : Int) -
        min 255 (max 0 ⌊((255 : Int) : ℚ) * (1 + 0 / 100) + 1 / 2⌋)| ≤ 1) := by
  have hf : ⌊((255 : Int) : ℚ) * (1 + 0 / 100) + 1 / 2⌋ = 255 := by
    rw [Int.floor_eq_iff]
    constructor <;> norm_num
  have hcode : adjustCreate_lut [Dbl.fin (-100000000000000000000), Dbl.fin 0]
      (fun _ => Dbl.nan) (fun _ => 7) 255 = 0 := by
    have hincr : Int.tdiv 256 (((2 : Nat) : Int) - 1) = 256 := by decide
    have hs : segStart 256 0 = 0 := by decide
    have he : segEnd ((2 : Nat) : Int) 256 0 = 255 := by decide
    have hin : (0 : Int) ≤ ((255 : Nat) : Int) ∧ ((255 : Nat) : Int) ≤ 255 := by decide
    have hlen : (([Dbl.fin (-100000000000000000000), Dbl.fin 0] : List Dbl).length) = 2 := rfl
    have hcount : (((2 : Nat) : Int) - 1).toNat = 0 + 1 := rfl
    rw [adjustCreate_lut_multi _ _ _ (by simp), hlen, hincr, hcount, forLoop_succ, hs, he,
      forFromTo_store _ _ (by decide), if_pos hin]
    have hv := segVal_cancellation (fun _ => Dbl.nan)
    show sat1 (segVal 2 256 [Dbl.fin (-100000000000000000000), Dbl.fin 0] (fun _ => Dbl.nan)
      0 255) = 0
    rw [hv, sat1_fin]
    norm_num [clampR]
  refine ⟨by decide, by decide, hcode, ?_, ?_⟩
  · rw [hf]
    decide
  · have h255 : (255 : Int).toNat = 255 := rfl
    rw [h255, hcode, hf]
    decide

/-- C9, amended: for control points `l` of length `N > 1` and a segment `i` in
`0..N-2` whose end is greater than its start, when the two control points of
the segment have magnitude at most `10^6`, the entry of the table of
`adjustCreate` at the end of the segment is within 1 of `round(end * gain_end)`
saturated to `[0, 255]`, with `gain_end = 1 + l[i+1]/100`. -/
theorem adjustCreate_segment_end_within_one (l : List ℚ) (i : Nat) (hi : i + 1 < l.length)
    (hpi : |l[i]| ≤ 1000000) (hpj : |l[i + 1]| ≤ 1000000)
    (incr e : Int) (hincr : incr = Int.tdiv 256 ((l.length : Int) - 1))
    (he : e = segEnd l.length incr i) (hseg : segStart incr i < e)
    (beyond : Nat → Dbl) (lut0 : Buf) :
    |((adjustCreate_lut (l.map Dbl.fin) beyond lut0 e.toNat : Nat) : Int) -
        min 255 (max 0 ⌊(e : ℚ) * (1 + l[i + 1] / 100) + 1 / 2⌋)| ≤ 1 := by
  have hlen : (l.map Dbl.fin).length = l.length := List.length_map l Dbl.fin
  have h2 : 2 ≤ (l.map Dbl.fin).length := by omega
  have hinc0 : 0 ≤ incr := by
    rw [hincr]
    exact incr_nonneg l.length (by omega)
  have hs0 := segStart_nonneg incr hinc0 i
  have he0 : 0 ≤ e := by omega
  have hek : ((e.toNat : Nat) : Int) = e := Int.toNat_of_nonneg he0
  have he255 : segEnd l.length incr i ≤ 255 := by
    rw [hincr]
    exact segEnd_le l.length i hi
  have hst := (segments_state (l.length : Int) incr hinc0
    (fun i j => sat1 (segVal (l.length : Int) incr (l.map Dbl.fin) beyond i j)) lut0
    ((l.length : Int) - 1).toNat (by omega)).1 i e.toNat (by omega) (by omega) (by omega)
  obtain ⟨r, hr, herr⟩ := segVal_end_near (l.length : Int) incr l beyond i hi hpi hpj
    (by omega) hs0 he255
  rw [adjustCreate_lut_multi _ _ _ h2, hlen, ← hincr, hst, hek, he, hr, ← clampR_eq_floor]
  exact sat1_near _ _ (lt_of_le_of_lt herr (by norm_num))

/-- C9 on the control points `[0, -90, 100]` (`incr = 128`), segment 0, which
ends at sample 127 with gain 0.1. -/
theorem adjustCreate_segment_end_within_one_witness :
    |((adjustCreate_lut (([0, -90, 100] : List ℚ).map Dbl.fin) (fun _ => Dbl.nan) (fun _ => 0)
        (127 : Int).toNat : Nat) : Int) -
        min 255 (max 0 ⌊((127 : Int) : ℚ) * (1 + ([0, -90, 100] : List ℚ)[0 + 1] / 100) + 1 / 2⌋)|
      ≤ 1 :=
  adjustCreate_segment_end_within_one [0, -90, 100] 0 (by decide)
    (by rw [abs_le]; constructor <;> norm_num) (by rw [abs_le]; constructor <;> norm_num)
    128 127 (by decide) (by decide) (by decide) (fun _ => Dbl.nan) (fun _ => 0)

/-- The value written by the segment of index 6 of seven control points at
sample 253, when the seven control points are 0 and the double read at index
7, past the array, is 0: every operation is exact. -/
theorem segVal_seven_last_zero (beyond : Nat → Dbl) (hx : beyond 7 = Dbl.fin 0) :
    segVal 7 42
        [Dbl.fin 0, Dbl.fin 0, Dbl.fin 0, Dbl.fin 0, Dbl.fin 0, Dbl.fin 0, Dbl.fin 0]
        beyond 6 253 = Dbl.fin (507 / 2) := by
  have hs : segStart 42 6 = 252 := by decide
  have he : segEnd 7 42 6 = 255 := by decide
  have r6 : readLuma
      [Dbl.fin 0, Dbl.fin 0, Dbl.fin 0, Dbl.fin 0, Dbl.fin 0, Dbl.fin 0, Dbl.fin 0]
      beyond 6 = Dbl.fin 0 := rfl
  have r7 : readLuma
      [Dbl.fin 0, Dbl.fin 0, Dbl.fin 0, Dbl.fin 0, Dbl.fin 0, Dbl.fin 0, Dbl.fin 0]
      beyond (6 + 1) = Dbl.fin 0 := hx
  have hd : Dbl.ofInt (255 - 252) = Dbl.fin 3 := by simp [Dbl.ofInt]
  have hj255 : Dbl.ofInt 255 = Dbl.fin 255 := by simp [Dbl.ofInt]
  have hj253 : Dbl.ofInt 253 = Dbl.fin 253 := by simp [Dbl.ofInt]
  have s3 : Dbl.fin 0 / Dbl.fin 100 = Dbl.fin 0 := by
    rw [Dbl.fin_div_hundred, zero_div, roundNearest_zero]
  have s4 : Dbl.fin 1 + Dbl.fin 0 = Dbl.fin 1 := by
    rw [add_exact _ _ 2 (by norm_num) (by norm_num), add_zero]
  have t1 : Dbl.fin 1 - Dbl.fin 1 = Dbl.fin 0 := by
    rw [Dbl.fin_sub, sub_self, roundNearest_zero]
  have t2 : Dbl.fin 0 / Dbl.fin 3 = Dbl.fin 0 := by
    rw [Dbl.fin_div _ _ (by norm_num), zero_div, roundNearest_zero]
  have t3 : Dbl.fin 0 * Dbl.fin 255 = Dbl.fin 0 := by
    rw [Dbl.fin_mul, zero_mul, roundNearest_zero]
  have t4 : Dbl.fin 1 - Dbl.fin 0 = Dbl.fin 1 := by
    rw [sub_exact _ _ 2 (by norm_num) (by norm_num), sub_zero]
  have t5 : Dbl.fin 0 * Dbl.fin 253 = Dbl.fin 0 := by
    rw [Dbl.fin_mul, zero_mul, roundNearest_zero]
  have t6 : Dbl.fin 0 + Dbl.fin 1 = Dbl.fin 1 := by
    rw [add_exact _ _ 2 (by norm_num) (by norm_num), zero_add]
  have t7 : Dbl.fin 1 * Dbl.fin 253 = Dbl.fin 253 := by
    rw [mul_exact _ _ 506 (by norm_num) (by norm_num), one_mul]
  have t8 : Dbl.fin 253 + Dbl.fin (1 / 2) = Dbl.fin (507 / 2) := by
    rw [add_exact _ _ 507 (by norm_num) (by norm_num)]
    norm_num
  simp only [segVal, hs, he, r6, r7, hd, hj255, hj253, s3, s4, t1, t2, t3, t4, t5, t6, t7, t8]

/-- The value written by the segment of index 6 of seven control points at
sample 253, when the seven control points are 0 and the double read at index
7, past the array, is 100: the slope is the double nearest to 1/3 and the
value, about 337.8, is a finite double of at least 255. -/
theorem segVal_seven_last_hundred (beyond : Nat → Dbl) (hx : beyond 7 = Dbl.fin 100) :
    ∃ r : ℚ, segVal 7 42
        [Dbl.fin 0, Dbl.fin 0, Dbl.fin 0, Dbl.fin 0, Dbl.fin 0, Dbl.fin 0, Dbl.fin 0]
        beyond 6 253 = Dbl.fin r ∧ 255 ≤ r := by
  have hs : segStart 42 6 = 252 := by decide
  have he : segEnd 7 42 6 = 255 := by decide
  have r6 : readLuma
      [Dbl.fin 0, Dbl.fin 0, Dbl.fin 0, Dbl.fin 0, Dbl.fin 0, Dbl.fin 0, Dbl.fin 0]
      beyond 6 = Dbl.fin 0 := rfl
  have r7 : readLuma
      [Dbl.fin 0, Dbl.fin 0, Dbl.fin 0, Dbl.fin 0, Dbl.fin 0, Dbl.fin 0, Dbl.fin 0]
      beyond (6 + 1) = Dbl.fin 100 := hx
  have hd : Dbl.ofInt (255 - 252) = Dbl.fin 3 := by simp [Dbl.ofInt]
  have hj255 : Dbl.ofInt 255 = Dbl.fin 255 := by simp [Dbl.ofInt]
  have hj253 : Dbl.ofInt 253 = Dbl.fin 253 := by simp [Dbl.ofInt]
  have s3 : Dbl.fin 0 / Dbl.fin 100 = Dbl.fin 0 := by
    rw [Dbl.fin_div_hundred, zero_div, roundNearest_zero]
  have s4 : Dbl.fin 1 + Dbl.fin 0 = Dbl.fin 1 := by
    rw [add_exact _ _ 2 (by norm_num) (by norm_num), add_zero]
  have u1 : Dbl.fin 100 / Dbl.fin 100 = Dbl.fin 1 := by
    rw [Dbl.fin_div_hundred, roundNearest_half_int _ 2 (by norm_num) (by norm_num)]
    norm_num
  have u2 : Dbl.fin 1 + Dbl.fin 1 = Dbl.fin 2 := by
    rw [add_exact _ _ 4 (by norm_num) (by norm_num)]
    norm_num
  have u3 : Dbl.fin 2 - Dbl.fin 1 = Dbl.fin 1 := by
    rw [sub_exact _ _ 2 (by norm_num) (by norm_num)]
    norm_num
  have b1 : |(1 : ℚ)| ≤ 1 := by norm_num
  have b2 : |(2 : ℚ)| ≤ 2 := by norm_num
  have b3 : (1 : ℚ) ≤ |(3 : ℚ)| := by norm_num
  have b253 : |(253 : ℚ)| ≤ 253 := by norm_num
  have b255 : |(255 : ℚ)| ≤ 255 := by norm_num
  have bhalf : |(1 / 2 : ℚ)| ≤ 1 := by
    rw [abs_le]
    constructor <;> norm_num
  obtain ⟨ra, ea, da, ba⟩ := div_step 1 3 1 b1 b3 (by norm_num)
  obtain ⟨rae, eae, dae, bae⟩ := mul_step ra 255 _ 255 ba b255 (by norm_num)
  obtain ⟨rb, eb, db, bb⟩ := sub_step 2 rae _ _ b2 bae (by norm_num)
  obtain ⟨raj, eaj, daj, baj⟩ := mul_step ra 253 _ 253 ba b253 (by norm_num)
  obtain ⟨rg, eg, dg, bg⟩ := add_step raj rb _ _ baj bb (by norm_num)
  obtain ⟨rge, ege, dge, bge⟩ := mul_step rg 253 _ 253 bg b253 (by norm_num)
  obtain ⟨rv, ev, dv, _⟩ := add_step rge (1 / 2) _ _ bge bhalf (by norm_num)
  refine ⟨rv, ?_, ?_⟩
  · simp only [segVal, hs, he, r6, r7, hd, hj255, hj253, s3, s4, u1, u2, u3, ea, eae, eb, eaj,
      eg, ege, ev]
  · rw [abs_le] at da dae db daj dg dge dv
    linarith [da.1, da.2, dae.1, dae.2, db.1, db.2, daj.1, daj.2, dg.1, dg.2, dge.1, dge.2,
      dv.1, dv.2]

/-- C10, evaluated on seven control points, all 0 (`incr = 42`): the loop of
`tweakCreate` runs `i < numLuma` and so iterates the index 6 = `numLuma - 1`
as a segment `[252, 255]` whose end gain is read from `lumaAdjust[7]`, one
past the array. Entry 253 of the table follows that stray double: it is 253
when the double is 0 and 255 when it is 100. -/
theorem tweakCreate_seven_points_read_past_array :
    segStart (Int.tdiv 256 (7 - 1)) 6 = 252 ∧
      segEnd 7 (Int.tdiv 256 (7 - 1)) 6 = 255 ∧
      (∀ lut0 : Buf,
        tweakCreate_lut
          [Dbl.fin 0, Dbl.fin 0, Dbl.fin 0, Dbl.fin 0, Dbl.fin 0, Dbl.fin 0, Dbl.fin 0]
          (fun _ => Dbl.fin 0) lut0 253 = 253) ∧
      (∀ lut0 : Buf,
        tweakCreate_lut
          [Dbl.fin 0, Dbl.fin 0, Dbl.fin 0, Dbl.fin 0, Dbl.fin 0, Dbl.fin 0, Dbl.fin 0]
          (fun _ => Dbl.fin 100) lut0 253 = 255) := by
  have hincr : Int.tdiv 256 (((7 : Nat) : Int) - 1) = 42 := by decide
  have hs : segStart 42 6 = 252 := by decide
  have he : segEnd ((7 : Nat) : Int) 42 6 = 255 := by decide
  have hin : (252 : Int) ≤ ((253 : Nat) : Int) ∧ ((253 : Nat) : Int) ≤ 255 := by decide
  have key : ∀ (beyond : Nat → Dbl) (lut0 : Buf),
      tweakCreate_lut
          [Dbl.fin 0, Dbl.fin 0, Dbl.fin 0, Dbl.fin 0, Dbl.fin 0, Dbl.fin 0, Dbl.fin 0]
          beyond lut0 253 =
        satHi (segVal 7 42
          [Dbl.fin 0, Dbl.fin 0, Dbl.fin 0, Dbl.fin 0, Dbl.fin 0, Dbl.fin 0, Dbl.fin 0]
          beyond 6 253) := by
    intro beyond lut0
    rw [tweakCreate_lut_multi _ _ _ (by simp)]
    have hlen : (([Dbl.fin 0, Dbl.fin 0, Dbl.fin 0, Dbl.fin 0, Dbl.fin 0, Dbl.fin 0,
        Dbl.fin 0] : List Dbl).length) = 7 := rfl
    have hcount : (((7 : Nat) : Int)).toNat = 6 + 1 := rfl
    rw [hlen, hincr, hcount, forLoop_succ, hs, he, forFromTo_store _ _ (by decide), if_pos hin]
    rfl
  refine ⟨by decide, by decide, fun lut0 => ?_, fun lut0 => ?_⟩
  · rw [key, segVal_seven_last_zero _ rfl]
    have h := satHi_fin_floor (507 / 2) (by norm_num)
    have hf : ⌊(507 / 2 : ℚ)⌋ = 253 := by
      rw [Int.floor_eq_iff]
      constructor <;> norm_num
    rw [hf] at h
    omega
  · obtain ⟨r, hr, h255⟩ := segVal_seven_last_hundred (fun _ => Dbl.fin 100) rfl
    rw [key, hr]
    have hlt : ¬ (r < 255) := not_lt.mpr h255
    simp [satHi, Dbl.lt, hlt]

/-! ## The identity rotation and the copy branch -/

/-- The saturation of the rotator leaves an 8-bit sample raised by one half
where it was: `0.5` falls below 1.0, `255.5` saturates, the rest truncates. -/
theorem clampR_sample_add_half (a : Nat) (ha : a < 256) : clampR ((a : ℚ) + 1 / 2) = a := by
  have h := sat1_fin_roundSat (a : ℚ)
  rw [sat1_fin, roundSat, floor_sample_add_half] at h
  omega

/-- The body of the rotation loop at `mult1 = 1.0`, `mult2 = 0.0` returns an
8-bit pair unchanged: every operation is exact. -/
theorem rotate_identity (a b : Nat) (ha : a < 256) (hb : b < 256) :
    rotate (Dbl.fin 1) (Dbl.fin 0) a b = (a, b) := by
  have h := rotate_int 1 0 a b ha hb (by decide) (by decide)
  rw [Int.cast_zero, Int.cast_one] at h
  have ea : ((a : ℚ) - 128) * 1 + ((b : ℚ) - 128) * 0 + 128.5 = (a : ℚ) + 1 / 2 := by
    norm_num
    ring
  have eb : ((b : ℚ) - 128) * 1 - ((a : ℚ) - 128) * 0 + 128.5 = (b : ℚ) + 1 / 2 := by
    norm_num
    ring
  rw [h, ea, eb, clampR_sample_add_half a ha, clampR_sample_add_half b hb]

/-- C11: at `m1 = 1`, `m2 = 0` the per-sample rotation of `adjustGetFrame`,
with its clamp (0 below 1.0, 255 from 255.0 on, truncation otherwise), returns
every pair of 8-bit samples `(a, b)` unchanged, both as the loop body of the
source and as the formula of the specification; hence the copy branch stores,
at every position of the chroma region, what the rotation of the source pair
found there would give. -/
theorem rotation_agrees_with_copy_at_identity (a b : Nat) (ha : a < 256) (hb : b < 256) :
    rotate (Dbl.fin 1) (Dbl.fin 0) a b = (a, b) ∧
      clampR (((a : ℚ) - 128) * 1 + ((b : ℚ) - 128) * 0 + 128.5) = a ∧
      clampR (((b : ℚ) - 128) * 1 - ((a : ℚ) - 128) * 0 + 128.5) = b ∧
      (∀ (d : adjustData) (src dst : Frame) (x y : Nat),
        d.mult1 = Dbl.fin 1 → d.mult2 = Dbl.fin 0 →
        x < d.chromaWidth → y < d.chromaHeight →
        src.p1 (y * d.chromaStride + x) = a → src.p2 (y * d.chromaStride + x) = b →
        (adjustGetFrame d src dst).p1 (y * d.chromaStride + x) =
            (rotate (Dbl.fin 1) (Dbl.fin 0) a b).1 ∧
          (adjustGetFrame d src dst).p2 (y * d.chromaStride + x) =
            (rotate (Dbl.fin 1) (Dbl.fin 0) a b).2) := by
  have hrot := rotate_identity a b ha hb
  have ea : ((a : ℚ) - 128) * 1 + ((b : ℚ) - 128) * 0 + 128.5 = (a : ℚ) + 1 / 2 := by
    norm_num
    ring
  have eb : ((b : ℚ) - 128) * 1 - ((a : ℚ) - 128) * 0 + 128.5 = (b : ℚ) + 1 / 2 := by
    norm_num
    ring
  refine ⟨hrot, by rw [ea, clampR_sample_add_half a ha],
    by rw [eb, clampR_sample_add_half b hb], ?_⟩
  intro d src dst x y hm1 hm2 hx hy hsa hsb
  have hbranch : ¬ (d.mult1 ≠ Dbl.fin 1 ∨ d.mult2 ≠ Dbl.fin 0) := by
    rw [hm1, hm2]
    simp
  simp only [adjustGetFrame, adjustGetFrame_chroma, if_neg hbranch, hrot]
  rw [vs_bitblt_inRows _ _ _ _ _ _ (inRows_of_lt hy hx),
    vs_bitblt_inRows _ _ _ _ _ _ (inRows_of_lt hy hx)]
  exact ⟨hsa, hsb⟩

/-- C11 at the two ends of the sample range, the pair `(0, 255)`. -/
theorem rotation_agrees_with_copy_at_identity_witness :
    (0 : Nat) < 256 ∧ (255 : Nat) < 256 ∧ rotate (Dbl.fin 1) (Dbl.fin 0) 0 255 = (0, 255) :=
  ⟨by decide, by decide,
    (rotation_agrees_with_copy_at_identity 0 255 (by decide) (by decide)).1⟩

end Tweak
